import Mathlib

/-!
Verification of the CPU-scheduling simulator (`scheduling.py`).

The Python source is shallowly embedded here:

* `Process` mirrors the Python `Process` class: a record of the spec fields
  (`pid`, `arrival_time`, `burst_time`) together with the mutable per-run
  fields (`remaining_time`, `completion_time`, `turnaround_time`,
  `waiting_time`, `response_time`, `first_run`).
* The four policy methods of `SchedulerSimulator` become pure functions of
  the simulator record.  Python's in-place mutation of process objects is
  modelled by indexing: the working list `processes` is a `List Process`,
  and a mutation of one object becomes `List.set` at that object's index.
  Auxiliary collections that hold object references in Python (`remaining`,
  `queue`, `completed`) hold indices here; the `in_queue` set of pids is a
  duplicate-free `List Int`.
* The unbounded `while` loops of `stcf_schedule` and `rr_schedule` (and the
  SJF loop) are run through the fuel-indexed `whileLoop`; `none` models a
  Python run that does not terminate within the given fuel.
* Python's `total/n` in `print_results` raises `ZeroDivisionError` when the
  process list is empty; this is modelled by `print_results` returning
  `none` exactly in that case (`some` carries the three float averages,
  modelled as rationals).
-/

/-- Embedding of the Python `Process` class: the three constructor arguments
plus the mutable simulation fields initialised by `__init__`. -/
structure Process where
  pid : Int
  arrival_time : Int
  burst_time : Int
  remaining_time : Int
  completion_time : Int
  turnaround_time : Int
  waiting_time : Int
  response_time : Int
  first_run : Int
deriving Repr, DecidableEq

/-- `Process(pid, arrival_time, burst_time)`: `__init__` sets
`remaining_time = burst_time`, the derived metrics to `0`, and
`first_run = -1`. -/
def Process.init (pid arrival_time burst_time : Int) : Process :=
  { pid := pid
    arrival_time := arrival_time
    burst_time := burst_time
    remaining_time := burst_time
    completion_time := 0
    turnaround_time := 0
    waiting_time := 0
    response_time := 0
    first_run := -1 }

/-- The immutable part of a process: `(pid, arrival_time, burst_time)`. -/
def Process.spec (p : Process) : Int × Int × Int :=
  (p.pid, p.arrival_time, p.burst_time)

/-- Timeline labels: Python uses the strings `'IDLE'` and `f'P{pid}'`; the
format string is injective on pids, so an inductive label is faithful. -/
inductive Label where
  | IDLE : Label
  | P : Int → Label
deriving Repr, DecidableEq

/-- A timeline entry `(label, start, end)` as appended by the Python code. -/
abbrev TimelineEntry := Label × Int × Int

/-- Embedding of the `SchedulerSimulator` object state: the caller-supplied
list `original_processes` and the per-run `processes` and `timeline`. -/
structure SchedulerSimulator where
  original_processes : List Process
  processes : List Process
  timeline : List TimelineEntry
deriving Repr, DecidableEq

/-- `reset_processes`: rebuild `self.processes` as fresh `Process` objects
from the pid/arrival/burst of each original, and clear the timeline. -/
def reset_processes (s : SchedulerSimulator) : SchedulerSimulator :=
  { original_processes := s.original_processes
    processes := s.original_processes.map
      (fun p => Process.init p.pid p.arrival_time p.burst_time)
    timeline := [] }

/-- `calculate_metrics`: `turnaround = completion - arrival` and
`waiting = turnaround - burst` for every process (response is set during
the simulation itself, matching the Python code). -/
def calculate_metrics (ps : List Process) : List Process :=
  ps.map (fun p =>
    { p with
      turnaround_time := p.completion_time - p.arrival_time
      waiting_time := p.completion_time - p.arrival_time - p.burst_time })

/-- The averages dictionary returned by `print_results`. -/
structure SimResult where
  avg_tat : Rat
  avg_wt : Rat
  avg_rt : Rat
deriving Repr, DecidableEq

/-- Embedding of `print_results`: sums the three metrics and divides each by
`len(self.processes)`.  On an empty list Python raises `ZeroDivisionError`;
that error is modelled by `none`. -/
def print_results (ps : List Process) : Option SimResult :=
  if ps.length = 0 then none
  else
    let total_tat : Int := ps.foldl (fun a p => a + p.turnaround_time) 0
    let total_wt : Int := ps.foldl (fun a p => a + p.waiting_time) 0
    let total_rt : Int := ps.foldl (fun a p => a + p.response_time) 0
    some
      { avg_tat := (total_tat : Rat) / (ps.length : Rat)
        avg_wt := (total_wt : Rat) / (ps.length : Rat)
        avg_rt := (total_rt : Rat) / (ps.length : Rat) }

/-- Reading a process by index; Python code never indexes out of range, so
the default value is irrelevant to the embedded behaviour. -/
def getP (ps : List Process) (i : Nat) : Process :=
  ps.getD i (Process.init 0 0 0)

/-- Embedding of Python's builtin `min(xs, key=key)` on a non-empty list
`x :: xs`: scan left to right and replace the current best only on a
strictly smaller key, so the first minimum wins. -/
def pythonMin {α : Type} (key : α → Int) (x : α) (xs : List α) : α :=
  xs.foldl (fun acc y => if key y < key acc then y else acc) x

/-- The comparison used by `self.processes.sort(key=lambda x: x.arrival_time)`.
Python's `list.sort` is a stable sort by this key; `List.insertionSort`
with this total preorder is stable as well, hence produces the same list. -/
def arrivalLE (a b : Process) : Prop :=
  a.arrival_time ≤ b.arrival_time

instance : DecidableRel arrivalLE := fun a b => by
  unfold arrivalLE; infer_instance

instance : IsTotal Process arrivalLE :=
  ⟨fun a b => Int.le_total a.arrival_time b.arrival_time⟩

instance : IsTrans Process arrivalLE :=
  ⟨fun _ _ _ h1 h2 => le_trans h1 h2⟩

/-- `self.processes.sort(key=lambda x: x.arrival_time)` (stable). -/
def sortByArrival (ps : List Process) : List Process :=
  List.insertionSort arrivalLE ps

/-- The dispatch time of a process under FIFO: wait for its arrival if the
clock has not reached it. -/
def fifoT (t : Int) (p : Process) : Int :=
  if t < p.arrival_time then p.arrival_time else t

/-- The FIFO mutation of a dispatched process: response, first run and
completion, computed from its dispatch time `t1`. -/
def fifoUpd (p : Process) (t1 : Int) : Process :=
  { p with
    response_time := t1 - p.arrival_time
    first_run := t1
    completion_time := t1 + p.burst_time }

/-- One iteration of the `for process in self.processes` FIFO body, folded
over `(done, timeline, current_time)`. -/
def fifoStep (acc : List Process × List TimelineEntry × Int) (p : Process) :
    List Process × List TimelineEntry × Int :=
  (acc.1 ++ [fifoUpd p (fifoT acc.2.2 p)],
   (if acc.2.2 < p.arrival_time
    then acc.2.1 ++ [(Label.IDLE, acc.2.2, p.arrival_time)] else acc.2.1) ++
     [(Label.P p.pid, fifoT acc.2.2 p, fifoT acc.2.2 p + p.burst_time)],
   fifoT acc.2.2 p + p.burst_time)

/-- `fifo_schedule`: reset, sort by arrival, run every process to completion
in order, then compute metrics and the averages.  (Wrapped in `Option` for
uniformity with the fuelled policies; FIFO itself always returns.) -/
def fifo_schedule (s : SchedulerSimulator) :
    Option (SchedulerSimulator × Option SimResult) :=
  let s0 := reset_processes s
  let sorted := sortByArrival s0.processes
  let out := sorted.foldl fifoStep ([], [], 0)
  let ps := calculate_metrics out.1
  some ({ s0 with processes := ps, timeline := out.2.1 }, print_results ps)

/-- A fuel-indexed `while cond: s = step(s)` loop; `none` means the loop was
still running when the fuel ran out (a non-terminating Python loop). -/
def whileLoop {σ : Type} (cond : σ → Bool) (step : σ → σ) : Nat → σ → Option σ
  | 0, _ => none
  | fuel + 1, s => if cond s then whileLoop cond step fuel (step s) else some s

/-- Loop state of `sjf_schedule`: the working processes, the indices still in
`remaining`, the `completed` indices, the clock and the timeline. -/
structure SjfState where
  ps : List Process
  remaining : List Nat
  completed : List Nat
  t : Int
  tl : List TimelineEntry
deriving Repr, DecidableEq

/-- `available = [p for p in remaining if p.arrival_time <= current_time]`. -/
def sjfAvailable (ps : List Process) (remaining : List Nat) (t : Int) : List Nat :=
  remaining.filter (fun i => decide ((getP ps i).arrival_time ≤ t))

/-- `next_arrival = min(p.arrival_time for p in remaining)` with `remaining`
given as its head and tail. -/
def sjfNextArrival (ps : List Process) (i : Nat) (rest : List Nat) : Int :=
  pythonMin id ((getP ps i).arrival_time)
    (rest.map (fun j => (getP ps j).arrival_time))

/-- The idle branch of the SJF loop: advance the clock to the minimum arrival
among `remaining` and record an `IDLE` interval. -/
def sjfAdvance (st : SjfState) (i : Nat) (rest : List Nat) : SjfState :=
  { st with t := sjfNextArrival st.ps i rest
            tl := st.tl ++ [(Label.IDLE, st.t, sjfNextArrival st.ps i rest)] }

/-- Dispatch of the selected shortest job `jm`: set response/first_run, run it
to completion, log the interval, and move `jm` from `remaining` to
`completed`. -/
def sjfDispatch (st : SjfState) (jm : Nat) : SjfState :=
  let p := getP st.ps jm
  let p1 := { p with
    response_time := st.t - p.arrival_time
    first_run := st.t
    completion_time := st.t + p.burst_time }
  { ps := st.ps.set jm p1
    remaining := st.remaining.erase jm
    completed := st.completed ++ [jm]
    t := st.t + p.burst_time
    tl := st.tl ++ [(Label.P p.pid, st.t, st.t + p.burst_time)] }

/-- One pass of the SJF `while remaining:` loop.  The Python `continue` after
the idle branch always reaches the dispatch on the next pass (after the
clock advances to the minimum arrival some process is available), so the
idle advance and the following dispatch are fused into one step. -/
def sjfStep (st : SjfState) : SjfState :=
  match st.remaining with
  | [] => st
  | i :: rest =>
    let st1 := if (sjfAvailable st.ps st.remaining st.t).isEmpty
      then sjfAdvance st i rest else st
    match sjfAvailable st1.ps st1.remaining st1.t with
    | [] => st1
    | j :: js =>
      sjfDispatch st1 (pythonMin (fun k => (getP st1.ps k).burst_time) j js)

/-- The SJF loop runs while `remaining` is non-empty. -/
def sjfCond (st : SjfState) : Bool :=
  !st.remaining.isEmpty

/-- `sjf_schedule`: every fused step removes one process from `remaining`,
so `length + 1` fuel always suffices. -/
def sjf_schedule (s : SchedulerSimulator) :
    Option (SchedulerSimulator × Option SimResult) :=
  let s0 := reset_processes s
  let n := s0.processes.length
  match whileLoop sjfCond sjfStep (n + 1) ⟨s0.processes, List.range n, [], 0, []⟩ with
  | none => none
  | some st =>
    let ps := calculate_metrics st.ps
    some ({ s0 with processes := ps, timeline := st.tl }, print_results ps)

/-- Loop state of `stcf_schedule`. -/
structure StcfState where
  ps : List Process
  completed : List Nat
  t : Int
  tl : List TimelineEntry
deriving Repr, DecidableEq

/-- `available = [p for p in self.processes if p.arrival_time <= current_time
and p.remaining_time > 0]`, as indices in list order. -/
def stcfAvailable (ps : List Process) (t : Int) : List Nat :=
  (List.range ps.length).filter
    (fun i => decide ((getP ps i).arrival_time ≤ t ∧ 0 < (getP ps i).remaining_time))

/-- Appending one executed unit to the timeline, merging with the previous
entry when it has the same label and ends where this unit starts. -/
def timelineAdd (tl : List TimelineEntry) (lab : Label) (s e : Int) :
    List TimelineEntry :=
  match tl.getLast? with
  | some last =>
    if last.1 = lab ∧ last.2.2 = s
    then tl.dropLast ++ [(last.1, last.2.1, e)]
    else tl ++ [(lab, s, e)]
  | none => tl ++ [(lab, s, e)]

/-- The mutation the STCF step applies to the selected process: first-run
bookkeeping, one executed unit, completion when the remaining time reaches
zero.  (Setting `first_run` does not change `remaining_time`.) -/
def stcfExecP (t : Int) (p : Process) : Process :=
  let p1 := if p.first_run = -1
    then { p with first_run := t, response_time := t - p.arrival_time }
    else p
  let p2 := { p1 with remaining_time := p1.remaining_time - 1 }
  if p2.remaining_time = 0 then { p2 with completion_time := t + 1 } else p2

/-- One iteration of the STCF `while` body: idle for one unit when nothing is
available, otherwise run the job with the shortest remaining time for one
unit. -/
def stcfStep (st : StcfState) : StcfState :=
  match stcfAvailable st.ps st.t with
  | [] => { st with t := st.t + 1 }
  | j :: js =>
    let jm := pythonMin (fun k => (getP st.ps k).remaining_time) j js
    { ps := st.ps.set jm (stcfExecP st.t (getP st.ps jm))
      completed := if (getP st.ps jm).remaining_time - 1 = 0
        then st.completed ++ [jm] else st.completed
      t := st.t + 1
      tl := timelineAdd st.tl (Label.P (getP st.ps jm).pid) st.t (st.t + 1) }

/-- The STCF loop runs while `len(completed) < len(self.processes)`. -/
def stcfCond (st : StcfState) : Bool :=
  decide (st.completed.length < st.ps.length)

/-- Total burst time of a list, clamped to `Nat` (fuel computation only). -/
def totalBurstNat (ps : List Process) : Nat :=
  ps.foldl (fun a p => a + p.burst_time.toNat) 0

/-- Maximum arrival time of a list, clamped to `Nat` (fuel computation only). -/
def maxArrivalNat (ps : List Process) : Nat :=
  ps.foldl (fun a p => max a p.arrival_time.toNat) 0

/-- Fuel bound for the STCF and RR loops: on valid input every iteration
either advances the clock toward the maximum arrival or executes at least
one unit of burst. -/
def loopFuel (ps : List Process) : Nat :=
  maxArrivalNat ps + totalBurstNat ps + 2

/-- `stcf_schedule`. -/
def stcf_schedule (s : SchedulerSimulator) :
    Option (SchedulerSimulator × Option SimResult) :=
  let s0 := reset_processes s
  match whileLoop stcfCond stcfStep (loopFuel s0.processes) ⟨s0.processes, [], 0, []⟩ with
  | none => none
  | some st =>
    let ps := calculate_metrics st.ps
    some ({ s0 with processes := ps, timeline := st.tl }, print_results ps)

/-- Loop state of `rr_schedule`: the working processes, the ready `queue`
(indices, front first), the `in_queue` set of pids, the `completed` indices,
the clock and the timeline. -/
structure RRState where
  ps : List Process
  queue : List Nat
  in_queue : List Int
  completed : List Nat
  t : Int
  tl : List TimelineEntry
deriving Repr, DecidableEq

/-- `in_queue.add(pid)`: a set add on the pid list. -/
def setAdd (s : List Int) (x : Int) : List Int :=
  if s.contains x then s else s ++ [x]

/-- One candidate of the arrival scan of `rr_schedule`: append process `i`
to the queue if it has arrived, its pid is not already queued, it still has
work, and (for the post-execution scan) it is not the process that just ran
(`excl` is that identity exclusion). -/
def rrAdmitStep (ps : List Process) (t : Int) (excl : Option Nat)
    (acc : List Nat × List Int) (i : Nat) : List Nat × List Int :=
  if (getP ps i).arrival_time ≤ t ∧ ¬acc.2.contains (getP ps i).pid ∧
      0 < (getP ps i).remaining_time ∧ excl ≠ some i
  then (acc.1 ++ [i], acc.2 ++ [(getP ps i).pid])
  else acc

/-- The arrival scan of `rr_schedule` (both copies of it): walk
`self.processes` in order, admitting every eligible process. -/
def rrAdmit (ps : List Process) (t : Int) (excl : Option Nat)
    (queue : List Nat) (inq : List Int) : List Nat × List Int :=
  (List.range ps.length).foldl (rrAdmitStep ps t excl) (queue, inq)

/-- The pre-loop seeding of the RR queue: every process with
`arrival_time <= 0` is enqueued (no other checks in the Python code). -/
def rrInit (ps : List Process) : List Nat × List Int :=
  (List.range ps.length).foldl
    (fun acc i =>
      if (getP ps i).arrival_time ≤ 0
      then (acc.1 ++ [i], setAdd acc.2 (getP ps i).pid)
      else acc)
    ([], [])

/-- The mutation the RR busy branch applies to the process that runs: set
`first_run`/`response_time` on a first dispatch, subtract the executed
`min(quantum, remaining_time)` from `remaining_time`, and set
`completion_time` when that reaches zero.  (Setting `first_run` does not
change `remaining_time`, so the executed amount is stated directly from
the process as dequeued.) -/
def rrExecP (quantum : Int) (t : Int) (p : Process) : Process :=
  let p1 := if p.first_run = -1
    then { p with first_run := t, response_time := t - p.arrival_time }
    else p
  let exec := min quantum p.remaining_time
  let p2 := { p1 with remaining_time := p1.remaining_time - exec }
  if p2.remaining_time = 0 then { p2 with completion_time := t + exec } else p2

/-- The busy branch of one RR iteration: dequeue `j`, run it for
`min(quantum, remaining_time)` units, admit the arrivals of that slice,
then complete or re-queue it.  `inq2` is the pid set after the admission
scan (the front pid is removed on dequeue, as in the Python code). -/
def rrBusy (quantum : Int) (st : RRState) (j : Nat) (rest : List Nat)
    (inq2 : List Int) : RRState :=
  let p := getP st.ps j
  let exec := min quantum p.remaining_time
  let t1 := st.t + exec
  let ps1 := st.ps.set j (rrExecP quantum st.t p)
  let tl1 := st.tl ++ [(Label.P p.pid, st.t, t1)]
  let adm2 := rrAdmit ps1 t1 (some j) rest (inq2.erase p.pid)
  if p.remaining_time - exec = 0 then
    { ps := ps1, queue := adm2.1, in_queue := adm2.2
      completed := st.completed ++ [j], t := t1, tl := tl1 }
  else
    { ps := ps1, queue := adm2.1 ++ [j], in_queue := setAdd adm2.2 p.pid
      completed := st.completed, t := t1, tl := tl1 }

/-- One iteration of the RR `while` body: admit arrivals, then either idle
for one unit (empty queue) or run the front process via `rrBusy`. -/
def rrStep (quantum : Int) (st : RRState) : RRState :=
  match rrAdmit st.ps st.t none st.queue st.in_queue with
  | ([], inq2) => { st with queue := [], in_queue := inq2, t := st.t + 1 }
  | (j :: rest, inq2) => rrBusy quantum st j rest inq2

/-- The RR loop runs while the queue is non-empty or some process is not yet
completed. -/
def rrCond (st : RRState) : Bool :=
  !st.queue.isEmpty || decide (st.completed.length < st.ps.length)

/-- `rr_schedule(quantum)`. -/
def rr_schedule (quantum : Int) (s : SchedulerSimulator) :
    Option (SchedulerSimulator × Option SimResult) :=
  let s0 := reset_processes s
  let ini := rrInit s0.processes
  match whileLoop rrCond (rrStep quantum) (loopFuel s0.processes)
      ⟨s0.processes, ini.1, ini.2, [], 0, []⟩ with
  | none => none
  | some st =>
    let ps := calculate_metrics st.ps
    some ({ s0 with processes := ps, timeline := st.tl }, print_results ps)

/-- The four policies of the engine. -/
inductive Policy where
  | FIFO : Policy
  | SJF : Policy
  | STCF : Policy
  | RR : Int → Policy
deriving Repr, DecidableEq

/-- Dispatch a policy run on a simulator. -/
def runPolicy : Policy → SchedulerSimulator →
    Option (SchedulerSimulator × Option SimResult)
  | Policy.FIFO => fifo_schedule
  | Policy.SJF => sjf_schedule
  | Policy.STCF => stcf_schedule
  | Policy.RR q => rr_schedule q

/-- The validity constraints the specification places on engine input. -/
def ValidInput (ps : List Process) : Prop :=
  (∀ p ∈ ps, 0 < p.burst_time) ∧ (∀ p ∈ ps, 0 ≤ p.arrival_time) ∧
    (ps.map Process.pid).Nodup

instance : DecidablePred ValidInput := fun ps => by
  unfold ValidInput; infer_instance

/-- Validity of the policy parameter itself: RR needs a positive quantum. -/
def policyValid : Policy → Prop
  | Policy.RR q => 1 ≤ q
  | _ => True

instance : DecidablePred policyValid := fun pol => by
  cases pol <;> simp only [policyValid] <;> infer_instance

/-- The worked example of the specification (and of `main()` in the source):
P1(0,5), P2(1,3), P3(2,8), P4(3,6). -/
def exampleSim : SchedulerSimulator :=
  { original_processes :=
      [Process.init 1 0 5, Process.init 2 1 3, Process.init 3 2 8, Process.init 4 3 6]
    processes := []
    timeline := [] }

/-- A timeline chains from `t0`: each entry starts where its predecessor
ended (the first at `t0`) and has positive length.  `timelineChainB 0 tl`
is exactly "ordered, gap-free, overlap-free coverage of `[0, makespan)`". -/
def timelineChainB (t0 : Int) : List TimelineEntry → Bool
  | [] => true
  | (_, s, e) :: rest => decide (s = t0) && decide (s < e) && timelineChainB e rest

/-- The end of the last timeline entry (`0` for an empty timeline). -/
def makespan (tl : List TimelineEntry) : Int :=
  match tl.getLast? with
  | some last => last.2.2
  | none => 0

/-- No two consecutive timeline entries carry the same label (the merge
invariant of the specification). -/
def mergedB : List TimelineEntry → Bool
  | (l1, _, _) :: (l2, s2, e2) :: rest =>
    decide (l1 ≠ l2) && mergedB ((l2, s2, e2) :: rest)
  | _ => true

/-- Sum of the lengths of the timeline entries whose label is a process. -/
def nonIdleLen (tl : List TimelineEntry) : Int :=
  (tl.map (fun x => if x.1 = Label.IDLE then 0 else x.2.2 - x.2.1)).sum

/-- Sum of the burst times of a process list. -/
def totalBurst (ps : List Process) : Int :=
  (ps.map (fun p => p.burst_time)).sum

/-- Sum of the remaining times of a process list. -/
def sumRemaining (ps : List Process) : Int :=
  (ps.map (fun p => p.remaining_time)).sum

/-- An invalid input per the specification's `ValidationError` clause:
duplicate pids, negative arrivals and zero bursts, all at once. -/
def invalidSim : SchedulerSimulator :=
  { original_processes := [Process.init 1 (-1) 0, Process.init 1 (-1) 0]
    processes := []
    timeline := [] }

/-- The single-process input on which `rr_schedule` with `quantum = 0`
loops forever. -/
def rrStuckStart : RRState :=
  { ps := [Process.init 1 0 1], queue := [0], in_queue := [1]
    completed := [], t := 0, tl := [] }

/-- The state the quantum-0 loop reaches after its first iteration, with an
arbitrary timeline suffix: the loop reproduces it verbatim except for one
more zero-length timeline entry, so it never exits. -/
def rrStuckState (tl : List TimelineEntry) : RRState :=
  { ps := [{ Process.init 1 0 1 with first_run := 0, response_time := 0 }]
    queue := [0], in_queue := [1], completed := [], t := 0, tl := tl }

theorem rrStuckState_step (tl : List TimelineEntry) :
    rrStep 0 (rrStuckState tl) = rrStuckState (tl ++ [(Label.P 1, 0, 0)]) := rfl

theorem rrStuckState_loop (fuel : Nat) :
    ∀ tl, whileLoop rrCond (rrStep 0) fuel (rrStuckState tl) = none := by
  induction fuel with
  | zero => intro tl; rfl
  | succ n ih =>
    intro tl
    rw [whileLoop]
    have hc : rrCond (rrStuckState tl) = true := rfl
    rw [hc, if_pos rfl, rrStuckState_step]
    exact ih _

theorem rrStuckStart_loop (fuel : Nat) :
    whileLoop rrCond (rrStep 0) fuel rrStuckStart = none := by
  cases fuel with
  | zero => rfl
  | succ n =>
    rw [whileLoop]
    have hc : rrCond rrStuckStart = true := rfl
    rw [hc, if_pos rfl]
    have hstep : rrStep 0 rrStuckStart = rrStuckState [(Label.P 1, 0, 0)] := rfl
    rw [hstep]
    exact rrStuckState_loop n _

/-- C4: on P1(0,5), P2(1,3), P3(2,8), P4(3,6), FIFO completes at 5, 8, 16,
22; turnaround 5, 7, 14, 19 (average 45/4 = 11.25); waiting 0, 4, 6, 13
(average 23/4 = 5.75); and each response time equals the waiting time. -/
theorem fifo_concrete_scenario :
    (fifo_schedule exampleSim).map (fun x =>
        (x.1.processes.map (fun p =>
          (p.pid, p.completion_time, p.turnaround_time, p.waiting_time, p.response_time)),
         x.2)) =
      some ([(1, 5, 5, 0, 0), (2, 8, 7, 4, 4), (3, 16, 14, 6, 6), (4, 22, 19, 13, 13)],
        some ⟨45 / 4, 23 / 4, 23 / 4⟩) := by
  rfl

/-- C1 counterexample: the engine performs no validation.  On the input
consisting of two processes with duplicate pid 1, arrival −1 and burst 0,
`fifo_schedule` does not raise anything: the simulation runs to the end,
produces two (zero-length) timeline entries and returns averages
(`2 / 2 = 1` for each of the three). -/
theorem validation_error_counterexample :
    (fifo_schedule invalidSim).map (fun x => (x.1.timeline, x.2)) =
      some ([(Label.P 1, 0, 0), (Label.P 1, 0, 0)], some ⟨2 / 2, 2 / 2, 2 / 2⟩) := by
  rfl

/-- C1 amended: no `ValidationError` exists.  Invalid inputs (burst ≤ 0,
arrival < 0, duplicate pids) are accepted and simulated normally, producing
timeline entries and averages; and for Round-Robin a `quantum ≤ 0` is not
rejected either — with an incomplete process the scheduling loop simply
never terminates (it returns `none` for every amount of fuel). -/
theorem no_validation_behavior :
    ((fifo_schedule invalidSim).map (fun x => (x.1.timeline, x.2)) =
      some ([(Label.P 1, 0, 0), (Label.P 1, 0, 0)], some ⟨2 / 2, 2 / 2, 2 / 2⟩)) ∧
    rr_schedule 0 { original_processes := [Process.init 1 0 1], processes := [], timeline := [] } = none ∧
    (∀ fuel : Nat, whileLoop rrCond (rrStep 0) fuel rrStuckStart = none) := by
  refine ⟨by rfl, by decide, rrStuckStart_loop⟩

/-- C3 counterexample: on the empty process list every field of the result
simulator is empty, but the averages are *not* returned: `print_results`
divides the metric totals by `len(self.processes) = 0`, i.e. Python raises
`ZeroDivisionError` (modelled by `none`) instead of returning without
error. -/
theorem empty_input_division_counterexample :
    fifo_schedule { original_processes := [], processes := [], timeline := [] } =
      some ({ original_processes := [], processes := [], timeline := [] }, none) ∧
    print_results [] = none := by
  exact ⟨rfl, rfl⟩

/-- C3 amended: an empty process list makes every policy produce an empty
timeline and empty process states, but the averages computation then
divides by zero (`ZeroDivisionError`, modelled by the `none` result) —
aggregate metrics are computed unconditionally, not only when the process
count is at least 1. -/
theorem empty_input_behavior :
    ∀ pol : Policy,
      runPolicy pol { original_processes := [], processes := [], timeline := [] } =
        some ({ original_processes := [], processes := [], timeline := [] }, none) := by
  intro pol
  cases pol <;> rfl

/-- C2 counterexample: STCF on the single process P1(arrival 1, burst 1)
produces the timeline [(P1, 1, 2)], which does not cover `[0, makespan)`
(the idle unit `[0, 1)` produced no entry); and RR (quantum 3) on P1(0, 5)
produces [(P1, 0, 3), (P1, 3, 5)] — two consecutive entries with the same
label, so contiguous same-label runs are not merged. -/
theorem timeline_gap_merge_counterexample :
    (stcf_schedule { original_processes := [Process.init 1 1 1], processes := [], timeline := [] }).map
        (fun x => x.1.timeline) = some [(Label.P 1, 1, 2)] ∧
    timelineChainB 0 [(Label.P 1, 1, 2)] = false ∧
    (rr_schedule 3 { original_processes := [Process.init 1 0 5], processes := [], timeline := [] }).map
        (fun x => x.1.timeline) = some [(Label.P 1, 0, 3), (Label.P 1, 3, 5)] ∧
    mergedB [(Label.P 1, 0, 3), (Label.P 1, 3, 5)] = false := by
  exact ⟨rfl, rfl, rfl, rfl⟩

/-! ## Generic loop lemmas -/

theorem whileLoop_invariant {σ : Type} {cond : σ → Bool} {step : σ → σ} (INV : σ → Prop)
    (pres : ∀ s, INV s → cond s = true → INV (step s)) :
    ∀ (fuel : Nat) (s s' : σ), INV s → whileLoop cond step fuel s = some s' →
      INV s' ∧ cond s' = false := by
  intro fuel
  induction fuel with
  | zero => intro s s' _ h; simp [whileLoop] at h
  | succ n ih =>
    intro s s' hI h
    rw [whileLoop] at h
    split at h
    · exact ih (step s) s' (pres s hI (by assumption)) h
    · cases h
      rename_i hc
      exact ⟨hI, by simpa using hc⟩

theorem whileLoop_terminates {σ : Type} {cond : σ → Bool} {step : σ → σ}
    (INV : σ → Prop) (μ : σ → Nat)
    (pres : ∀ s, INV s → cond s = true → INV (step s) ∧ μ (step s) < μ s) :
    ∀ (fuel : Nat) (s : σ), INV s → μ s < fuel →
      ∃ s', whileLoop cond step fuel s = some s' := by
  intro fuel
  induction fuel with
  | zero => intro s _ h; exact absurd h (Nat.not_lt_zero _)
  | succ n ih =>
    intro s hI hμ
    rw [whileLoop]
    by_cases hc : cond s = true
    · rw [if_pos hc]
      exact ih (step s) (pres s hI hc).1
        (lt_of_lt_of_le (pres s hI hc).2 (Nat.lt_succ_iff.mp hμ))
    · rw [if_neg hc]
      exact ⟨s, rfl⟩

/-! ## Properties of `pythonMin` -/

theorem pythonMin_cons {α : Type} (key : α → Int) (x y : α) (ys : List α) :
    pythonMin key x (y :: ys) = pythonMin key (if key y < key x then y else x) ys := rfl

theorem pythonMin_decomp {α : Type} (key : α → Int) :
    ∀ (xs : List α) (x : α), ∃ l1 l2, x :: xs = l1 ++ pythonMin key x xs :: l2 ∧
      (∀ y ∈ x :: xs, key (pythonMin key x xs) ≤ key y) ∧
      (∀ y ∈ l1, key (pythonMin key x xs) < key y) := by
  intro xs
  induction xs with
  | nil =>
    intro x
    exact ⟨[], [], rfl, by simp [pythonMin], by simp⟩
  | cons y ys ih =>
    intro x
    rw [pythonMin_cons]
    by_cases hxy : key y < key x
    · rw [if_pos hxy]
      obtain ⟨l1, l2, hsplit, hle, hlt⟩ := ih y
      refine ⟨x :: l1, l2, by rw [List.cons_append, ← hsplit], ?_, ?_⟩
      · intro z hz
        rcases List.mem_cons.mp hz with rfl | hz
        · exact le_of_lt (lt_of_le_of_lt (hle y (List.mem_cons_self y ys)) hxy)
        · exact hle z hz
      · intro z hz
        rcases List.mem_cons.mp hz with rfl | hz
        · exact lt_of_le_of_lt (hle y (List.mem_cons_self y ys)) hxy
        · exact hlt z hz
    · rw [if_neg hxy]
      have hxle : key x ≤ key y := le_of_not_lt hxy
      obtain ⟨l1, l2, hsplit, hle, hlt⟩ := ih x
      cases l1 with
      | nil =>
        simp only [List.nil_append] at hsplit
        have h1 : x = pythonMin key x ys := by injection hsplit
        refine ⟨[], y :: ys, by rw [List.nil_append, ← h1], ?_, by simp⟩
        intro z hz
        rcases List.mem_cons.mp hz with rfl | hz
        · rw [← h1]
        · rcases List.mem_cons.mp hz with rfl | hz'
          · rw [← h1]; exact hxle
          · exact hle z (List.mem_cons_of_mem x hz')
      | cons a l1' =>
        rw [List.cons_append] at hsplit
        have h1 : x = a := by injection hsplit
        have h2 : ys = l1' ++ pythonMin key x ys :: l2 := by injection hsplit
        subst h1
        have hax : key (pythonMin key x ys) < key x := hlt x (List.mem_cons_self x l1')
        refine ⟨x :: y :: l1', l2, ?_, ?_, ?_⟩
        · rw [show x :: y :: ys = x :: y :: (l1' ++ pythonMin key x ys :: l2) from by rw [← h2]]
          simp [List.cons_append]
        · intro z hz
          rcases List.mem_cons.mp hz with rfl | hz
          · exact le_of_lt hax
          · rcases List.mem_cons.mp hz with rfl | hz'
            · exact le_trans (le_of_lt hax) hxle
            · exact hle z (List.mem_cons_of_mem x hz')
        · intro z hz
          rcases List.mem_cons.mp hz with rfl | hz
          · exact hax
          · rcases List.mem_cons.mp hz with rfl | hz'
            · exact lt_of_lt_of_le hax hxle
            · exact hlt z (List.mem_cons_of_mem x hz')

theorem pythonMin_mem {α : Type} (key : α → Int) (x : α) (xs : List α) :
    pythonMin key x xs ∈ x :: xs := by
  obtain ⟨l1, l2, hsplit, -, -⟩ := pythonMin_decomp key xs x
  rw [hsplit]
  exact List.mem_append_right _ (List.mem_cons_self _ _)

theorem pythonMin_le {α : Type} (key : α → Int) (x : α) (xs : List α) :
    ∀ y ∈ x :: xs, key (pythonMin key x xs) ≤ key y :=
  (pythonMin_decomp key xs x).choose_spec.choose_spec.2.1

/-! ## Index access and update lemmas -/

theorem getP_set_self : ∀ (ps : List Process) (j : Nat) (p : Process),
    j < ps.length → getP (ps.set j p) j = p
  | [], j, p, h => absurd h (by simp)
  | _ :: _, 0, _, _ => rfl
  | _ :: ps, j + 1, p, h => getP_set_self ps j p (by simpa using h)

theorem getP_set_ne : ∀ (ps : List Process) (i j : Nat) (p : Process),
    i ≠ j → getP (ps.set j p) i = getP ps i
  | [], _, _, _, _ => rfl
  | _ :: _, 0, 0, _, h => absurd rfl h
  | _ :: _, 0, _ + 1, _, _ => rfl
  | _ :: _, _ + 1, 0, _, _ => rfl
  | _ :: ps, i + 1, j + 1, p, h =>
    getP_set_ne ps i j p (fun hh => h (by rw [hh]))

theorem getP_mem : ∀ (ps : List Process) (i : Nat), i < ps.length → getP ps i ∈ ps
  | [], i, h => absurd h (by simp)
  | q :: _, 0, _ => List.mem_cons_self q _
  | _ :: ps, i + 1, h => List.mem_cons_of_mem _ (getP_mem ps i (by simpa using h))

theorem mem_getP (ps : List Process) (p : Process) (h : p ∈ ps) :
    ∃ i, i < ps.length ∧ getP ps i = p := by
  induction ps with
  | nil => cases h
  | cons q ps ih =>
    rcases List.mem_cons.mp h with rfl | h
    · exact ⟨0, by simp, rfl⟩
    · obtain ⟨i, hi, hg⟩ := ih h
      exact ⟨i + 1, by simpa using hi, hg⟩

/-- The immutable spec fields of the working list, in order. -/
def specsOf (ps : List Process) : List (Int × Int × Int) :=
  ps.map Process.spec

theorem specsOf_set : ∀ (ps : List Process) (j : Nat) (p : Process),
    Process.spec p = Process.spec (getP ps j) → specsOf (ps.set j p) = specsOf ps
  | [], _, _, _ => rfl
  | q :: ps, 0, p, h => by
    show Process.spec p :: specsOf ps = Process.spec q :: specsOf ps
    rw [h]
    rfl
  | q :: ps, j + 1, p, h => by
    show Process.spec q :: specsOf (ps.set j p) = Process.spec q :: specsOf ps
    rw [specsOf_set ps j p h]

theorem specsOf_length {ps qs : List Process} (h : specsOf ps = specsOf qs) :
    ps.length = qs.length := by
  have := congrArg List.length h
  simpa [specsOf] using this

theorem getP_spec_eq : ∀ {ps qs : List Process}, specsOf ps = specsOf qs →
    ∀ i, Process.spec (getP ps i) = Process.spec (getP qs i)
  | [], [], _, _ => rfl
  | [], _ :: _, h, _ => absurd h (by simp [specsOf])
  | _ :: _, [], h, _ => absurd h (by simp [specsOf])
  | p :: ps, q :: qs, h, 0 => by
    simp only [specsOf, List.map, List.cons.injEq] at h
    exact h.1
  | p :: ps, q :: qs, h, i + 1 => by
    simp only [specsOf, List.map, List.cons.injEq] at h
    exact getP_spec_eq (by simpa [specsOf] using h.2) i

theorem spec_pid {p q : Process} (h : Process.spec p = Process.spec q) : p.pid = q.pid :=
  congrArg (fun x => x.1) h

theorem spec_arrival {p q : Process} (h : Process.spec p = Process.spec q) :
    p.arrival_time = q.arrival_time :=
  congrArg (fun x => x.2.1) h

theorem spec_burst {p q : Process} (h : Process.spec p = Process.spec q) :
    p.burst_time = q.burst_time :=
  congrArg (fun x => x.2.2) h

theorem getP_eq_getElem (ps : List Process) (i : Nat) (hi : i < ps.length) :
    getP ps i = ps[i] := by
  unfold getP
  rw [List.getD_eq_getElem?_getD, List.getElem?_eq_getElem hi]
  rfl

theorem pid_inj_of_nodup {ps : List Process} (h : (ps.map Process.pid).Nodup) :
    ∀ {i j : Nat}, i < ps.length → j < ps.length →
      (getP ps i).pid = (getP ps j).pid → i = j := by
  intro i j hi hj hpid
  have hi2 : i < (ps.map Process.pid).length := by simpa using hi
  have hj2 : j < (ps.map Process.pid).length := by simpa using hj
  have hgi : (ps.map Process.pid).get ⟨i, hi2⟩ = (getP ps i).pid := by
    rw [List.get_eq_getElem, List.getElem_map, getP_eq_getElem ps i hi]
  have hgj : (ps.map Process.pid).get ⟨j, hj2⟩ = (getP ps j).pid := by
    rw [List.get_eq_getElem, List.getElem_map, getP_eq_getElem ps j hj]
  have hij : (⟨i, hi2⟩ : Fin (ps.map Process.pid).length) = ⟨j, hj2⟩ :=
    (List.Nodup.get_inj_iff h).mp (hgi.trans (hpid.trans hgj.symm))
  exact congrArg Fin.val hij

theorem mem_of_nodup_length_ge {l : List Nat} {n : Nat} (hnd : l.Nodup)
    (hsub : ∀ x ∈ l, x < n) (hlen : n ≤ l.length) : ∀ i < n, i ∈ l := by
  intro i hi
  have hsubset : l ⊆ List.range n := fun x hx => List.mem_range.mpr (hsub x hx)
  have hsp : List.Subperm l (List.range n) := List.subperm_of_subset hnd hsubset
  have hperm : l.Perm (List.range n) := hsp.perm_of_length_le (by simpa using hlen)
  exact hperm.mem_iff.mpr (List.mem_range.mpr hi)

/-! ## Timeline chain and merge lemmas -/

/-- `chainTo t0 tl t`: the entries of `tl` tile the interval `[t0, t)`:
each starts where the previous ended, the first at `t0`, the last ending at
`t`, and every entry is non-degenerate. -/
def chainTo (t0 : Int) : List TimelineEntry → Int → Prop
  | [], t => t0 = t
  | (_, s, e) :: rest, t => s = t0 ∧ s < e ∧ chainTo e rest t

theorem chainTo_append {tl : List TimelineEntry} {t0 t : Int} (l : Label) {e : Int}
    (h : chainTo t0 tl t) (he : t < e) : chainTo t0 (tl ++ [(l, t, e)]) e := by
  induction tl generalizing t0 with
  | nil =>
    have ht : t0 = t := h
    subst ht
    exact ⟨rfl, he, rfl⟩
  | cons x rest ih =>
    obtain ⟨lx, sx, ex⟩ := x
    obtain ⟨h1, h2, h3⟩ := h
    exact ⟨h1, h2, ih h3⟩

theorem timelineChainB_of_chainTo :
    ∀ (tl : List TimelineEntry) (t0 t : Int), chainTo t0 tl t →
      timelineChainB t0 tl = true := by
  intro tl
  induction tl with
  | nil => intro t0 t _; rfl
  | cons x rest ih =>
    intro t0 t h
    obtain ⟨lx, sx, ex⟩ := x
    obtain ⟨h1, h2, h3⟩ := h
    simp only [timelineChainB, Bool.and_eq_true, decide_eq_true_eq]
    exact ⟨⟨h1, h2⟩, ih ex t h3⟩

/-- The label of the last timeline entry, if any. -/
def lastLabel (tl : List TimelineEntry) : Option Label :=
  tl.getLast?.map (fun x => x.1)

theorem lastLabel_append (tl : List TimelineEntry) (l : Label) (s e : Int) :
    lastLabel (tl ++ [(l, s, e)]) = some l := by
  unfold lastLabel
  rw [List.getLast?_concat]
  rfl

theorem lastLabel_cons_cons (x y : TimelineEntry) (rest : List TimelineEntry) :
    lastLabel (x :: y :: rest) = lastLabel (y :: rest) := by
  unfold lastLabel
  rw [List.getLast?_cons_cons]

theorem mergedB_append (tl : List TimelineEntry) (l : Label) (s e : Int)
    (hm : mergedB tl = true) (hl : lastLabel tl ≠ some l) :
    mergedB (tl ++ [(l, s, e)]) = true := by
  induction tl with
  | nil => rfl
  | cons x rest ih =>
    cases rest with
    | nil =>
      obtain ⟨lx, sx, ex⟩ := x
      have hne : lx ≠ l := fun hh => hl (by simp [lastLabel, hh])
      simp [mergedB, hne]
    | cons y rest' =>
      obtain ⟨lx, sx, ex⟩ := x
      obtain ⟨ly, sy, ey⟩ := y
      simp only [mergedB, Bool.and_eq_true, decide_eq_true_eq] at hm
      have htail : mergedB (((ly, sy, ey) :: rest') ++ [(l, s, e)]) = true :=
        ih hm.2 (fun hh => hl (by rw [← lastLabel_cons_cons (lx, sx, ex)] at hh; exact hh))
      simp only [List.cons_append] at htail ⊢
      simp only [mergedB, Bool.and_eq_true, decide_eq_true_eq]
      exact ⟨hm.1, htail⟩

/-! ## Sum lemmas for the work-conservation argument -/

theorem nonIdleLen_append (t1 t2 : List TimelineEntry) :
    nonIdleLen (t1 ++ t2) = nonIdleLen t1 + nonIdleLen t2 := by
  simp [nonIdleLen]

theorem nonIdleLen_proc (q : Int) (s e : Int) :
    nonIdleLen [(Label.P q, s, e)] = e - s := by
  simp [nonIdleLen]

theorem nonIdleLen_idle (s e : Int) : nonIdleLen [(Label.IDLE, s, e)] = 0 := by
  simp [nonIdleLen]

theorem nonIdleLen_timelineAdd (tl : List TimelineEntry) (q : Int) (s e : Int) :
    nonIdleLen (timelineAdd tl (Label.P q) s e) = nonIdleLen tl + (e - s) := by
  unfold timelineAdd
  cases hlast : tl.getLast? with
  | none => rw [nonIdleLen_append, nonIdleLen_proc]
  | some last =>
    show nonIdleLen (if last.1 = Label.P q ∧ last.2.2 = s
        then tl.dropLast ++ [(last.1, last.2.1, e)]
        else tl ++ [(Label.P q, s, e)]) = nonIdleLen tl + (e - s)
    by_cases hcond : last.1 = Label.P q ∧ last.2.2 = s
    · rw [if_pos hcond]
      have hdecomp : tl.dropLast ++ [last] = tl :=
        List.dropLast_append_getLast? last hlast
      have h1 : nonIdleLen (tl.dropLast ++ [(last.1, last.2.1, e)]) =
          nonIdleLen tl.dropLast + (e - last.2.1) := by
        rw [nonIdleLen_append, hcond.1, nonIdleLen_proc]
      have h2 : nonIdleLen tl = nonIdleLen tl.dropLast + (last.2.2 - last.2.1) := by
        conv_lhs => rw [← hdecomp]
        rw [nonIdleLen_append]
        have : nonIdleLen [last] = last.2.2 - last.2.1 := by
          have hlab : last.1 = Label.P q := hcond.1
          simp [nonIdleLen, hlab]
        rw [this]
      rw [h1, h2, ← hcond.2]
      ring
    · rw [if_neg hcond, nonIdleLen_append, nonIdleLen_proc]

theorem sumRemaining_set (ps : List Process) (j : Nat) (p : Process)
    (hj : j < ps.length) :
    sumRemaining (ps.set j p) =
      sumRemaining ps - (getP ps j).remaining_time + p.remaining_time := by
  induction ps generalizing j with
  | nil => exact absurd hj (by simp)
  | cons q ps ih =>
    cases j with
    | zero =>
      show p.remaining_time + sumRemaining ps = _
      have : getP (q :: ps) 0 = q := rfl
      rw [this]
      show p.remaining_time + sumRemaining ps =
        q.remaining_time + sumRemaining ps - q.remaining_time + p.remaining_time
      ring
    | succ j =>
      show q.remaining_time + sumRemaining (ps.set j p) = _
      rw [ih j (by simpa using hj)]
      have : getP (q :: ps) (j + 1) = getP ps j := rfl
      rw [this]
      show q.remaining_time + (sumRemaining ps - (getP ps j).remaining_time + p.remaining_time) =
        q.remaining_time + sumRemaining ps - (getP ps j).remaining_time + p.remaining_time
      ring

theorem sumRemaining_eq_zero (ps : List Process)
    (h : ∀ p ∈ ps, p.remaining_time = 0) : sumRemaining ps = 0 := by
  induction ps with
  | nil => rfl
  | cons q ps ih =>
    show q.remaining_time + sumRemaining ps = 0
    rw [h q (List.mem_cons_self q ps), ih (fun p hp => h p (List.mem_cons_of_mem q hp))]
    ring

/-- Sum of the burst times of the processes named by an index list. -/
def sumBurstOf (ps : List Process) (is : List Nat) : Int :=
  (is.map (fun i => (getP ps i).burst_time)).sum

theorem sumBurstOf_erase (ps : List Process) (is : List Nat) (j : Nat)
    (hj : j ∈ is) :
    sumBurstOf ps is = (getP ps j).burst_time + sumBurstOf ps (is.erase j) := by
  have hperm : is.Perm (j :: is.erase j) := List.perm_cons_erase hj
  unfold sumBurstOf
  rw [List.Perm.sum_eq (List.Perm.map _ hperm)]
  rfl

theorem sumBurstOf_congr (ps qs : List Process) (is : List Nat)
    (h : ∀ i ∈ is, (getP ps i).burst_time = (getP qs i).burst_time) :
    sumBurstOf ps is = sumBurstOf qs is := by
  unfold sumBurstOf
  rw [List.map_congr_left h]

theorem totalBurst_eq_of_specsOf {ps qs : List Process}
    (h : specsOf ps = specsOf qs) : totalBurst ps = totalBurst qs := by
  have h1 : totalBurst ps = ((specsOf ps).map (fun x => x.2.2)).sum := by
    simp only [totalBurst, specsOf, List.map_map]
    rfl
  have h2 : totalBurst qs = ((specsOf qs).map (fun x => x.2.2)).sum := by
    simp only [totalBurst, specsOf, List.map_map]
    rfl
  rw [h1, h2, h]

theorem totalBurst_perm {ps qs : List Process} (h : ps.Perm qs) :
    totalBurst ps = totalBurst qs := by
  unfold totalBurst
  exact List.Perm.sum_eq (List.Perm.map _ h)

/-- `totalBurst` as a sum over all indices. -/
theorem totalBurst_eq_sumBurstOf_range (ps : List Process) :
    totalBurst ps = sumBurstOf ps (List.range ps.length) := by
  induction ps with
  | nil => rfl
  | cons q ps ih =>
    show q.burst_time + totalBurst ps = sumBurstOf (q :: ps) (List.range (ps.length + 1))
    rw [List.range_succ_eq_map]
    show q.burst_time + totalBurst ps =
      (getP (q :: ps) 0).burst_time +
        (((List.range ps.length).map Nat.succ).map
          (fun i => (getP (q :: ps) i).burst_time)).sum
    rw [List.map_map]
    have hmap : (List.range ps.length).map
          ((fun i => (getP (q :: ps) i).burst_time) ∘ Nat.succ) =
        (List.range ps.length).map (fun i => (getP ps i).burst_time) :=
      List.map_congr_left (fun i _ => rfl)
    rw [hmap]
    have h0 : getP (q :: ps) 0 = q := rfl
    rw [h0, ih]
    rfl

/-! ## Shape lemmas for the four schedule functions -/

theorem fifo_schedule_eq (s : SchedulerSimulator) :
    fifo_schedule s = some
      ({ original_processes := s.original_processes
         processes := calculate_metrics
           ((sortByArrival (reset_processes s).processes).foldl fifoStep ([], [], 0)).1
         timeline :=
           ((sortByArrival (reset_processes s).processes).foldl fifoStep ([], [], 0)).2.1 },
       print_results (calculate_metrics
         ((sortByArrival (reset_processes s).processes).foldl fifoStep ([], [], 0)).1)) := rfl

theorem sjf_schedule_elim (s : SchedulerSimulator)
    (out : SchedulerSimulator × Option SimResult) (h : sjf_schedule s = some out) :
    ∃ st, whileLoop sjfCond sjfStep ((reset_processes s).processes.length + 1)
        ⟨(reset_processes s).processes,
          List.range (reset_processes s).processes.length, [], 0, []⟩ = some st ∧
      out = ({ original_processes := s.original_processes
               processes := calculate_metrics st.ps
               timeline := st.tl },
             print_results (calculate_metrics st.ps)) := by
  simp only [sjf_schedule] at h
  cases hw : whileLoop sjfCond sjfStep ((reset_processes s).processes.length + 1)
      ⟨(reset_processes s).processes,
        List.range (reset_processes s).processes.length, [], 0, []⟩ with
  | none => rw [hw] at h; cases h
  | some st =>
    rw [hw] at h
    exact ⟨st, rfl, (Option.some.inj h).symm⟩

theorem stcf_schedule_elim (s : SchedulerSimulator)
    (out : SchedulerSimulator × Option SimResult) (h : stcf_schedule s = some out) :
    ∃ st, whileLoop stcfCond stcfStep (loopFuel (reset_processes s).processes)
        ⟨(reset_processes s).processes, [], 0, []⟩ = some st ∧
      out = ({ original_processes := s.original_processes
               processes := calculate_metrics st.ps
               timeline := st.tl },
             print_results (calculate_metrics st.ps)) := by
  simp only [stcf_schedule] at h
  cases hw : whileLoop stcfCond stcfStep (loopFuel (reset_processes s).processes)
      ⟨(reset_processes s).processes, [], 0, []⟩ with
  | none => rw [hw] at h; cases h
  | some st =>
    rw [hw] at h
    exact ⟨st, rfl, (Option.some.inj h).symm⟩

theorem rr_schedule_elim (q : Int) (s : SchedulerSimulator)
    (out : SchedulerSimulator × Option SimResult) (h : rr_schedule q s = some out) :
    ∃ st, whileLoop rrCond (rrStep q) (loopFuel (reset_processes s).processes)
        ⟨(reset_processes s).processes, (rrInit (reset_processes s).processes).1,
          (rrInit (reset_processes s).processes).2, [], 0, []⟩ = some st ∧
      out = ({ original_processes := s.original_processes
               processes := calculate_metrics st.ps
               timeline := st.tl },
             print_results (calculate_metrics st.ps)) := by
  simp only [rr_schedule] at h
  cases hw : whileLoop rrCond (rrStep q) (loopFuel (reset_processes s).processes)
      ⟨(reset_processes s).processes, (rrInit (reset_processes s).processes).1,
        (rrInit (reset_processes s).processes).2, [], 0, []⟩ with
  | none => rw [hw] at h; cases h
  | some st =>
    rw [hw] at h
    exact ⟨st, rfl, (Option.some.inj h).symm⟩

/-! ## Run independence: every policy reads only `original_processes` -/

theorem reset_congr {s s' : SchedulerSimulator}
    (h : s.original_processes = s'.original_processes) :
    reset_processes s = reset_processes s' := by
  unfold reset_processes
  rw [h]

theorem runPolicy_congr (pol : Policy) {s s' : SchedulerSimulator}
    (h : s.original_processes = s'.original_processes) :
    runPolicy pol s = runPolicy pol s' := by
  cases pol with
  | FIFO =>
    show fifo_schedule s = fifo_schedule s'
    simp only [fifo_schedule]
    rw [reset_congr h]
  | SJF =>
    show sjf_schedule s = sjf_schedule s'
    simp only [sjf_schedule]
    rw [reset_congr h]
  | STCF =>
    show stcf_schedule s = stcf_schedule s'
    simp only [stcf_schedule]
    rw [reset_congr h]
  | RR q =>
    show rr_schedule q s = rr_schedule q s'
    simp only [rr_schedule]
    rw [reset_congr h]

theorem runPolicy_orig (pol : Policy) (s : SchedulerSimulator)
    (out : SchedulerSimulator × Option SimResult) (hrun : runPolicy pol s = some out) :
    out.1.original_processes = s.original_processes := by
  cases pol with
  | FIFO =>
    rw [show runPolicy Policy.FIFO s = fifo_schedule s from rfl, fifo_schedule_eq] at hrun
    rw [← Option.some.inj hrun]
  | SJF =>
    obtain ⟨st, -, hout⟩ := sjf_schedule_elim s out hrun
    rw [hout]
  | STCF =>
    obtain ⟨st, -, hout⟩ := stcf_schedule_elim s out hrun
    rw [hout]
  | RR q =>
    obtain ⟨st, -, hout⟩ := rr_schedule_elim q s out hrun
    rw [hout]

/-- C9: each policy invocation starts from a fresh reset of the original
process specs and never mutates them, so running a second policy after a
first produces exactly the same output as running it alone, and the
original specs survive unchanged. -/
theorem policy_runs_independent (pol1 pol2 : Policy) (s : SchedulerSimulator)
    (out : SchedulerSimulator × Option SimResult)
    (hrun : runPolicy pol1 s = some out) :
    runPolicy pol2 out.1 = runPolicy pol2 s ∧
      out.1.original_processes = s.original_processes := by
  have horig := runPolicy_orig pol1 s out hrun
  exact ⟨runPolicy_congr pol2 horig, horig⟩

/-- Witness for C9 at a concrete input: FIFO then SJF on the worked example
equals SJF alone. -/
theorem policy_runs_independent_witness :
    runPolicy Policy.SJF
        ((Option.getD (runPolicy Policy.FIFO exampleSim) (exampleSim, none)).1) =
      runPolicy Policy.SJF exampleSim ∧
    ((Option.getD (runPolicy Policy.FIFO exampleSim) (exampleSim, none)).1).original_processes =
      exampleSim.original_processes :=
  policy_runs_independent Policy.FIFO Policy.SJF exampleSim
    (Option.getD (runPolicy Policy.FIFO exampleSim) (exampleSim, none)) (by rfl)

/-- C7: the selection in `sjf_schedule` and `stcf_schedule` is Python's
`min(available, key=...)`, which returns the *first* element attaining the
minimal key in the iteration order of `available`; and `available` is a
filter of the remaining/process list, hence follows original input order.
The decomposition says: everything before the selected element has a
strictly larger key (so neither minimal pid nor arrival order is used). -/
theorem sjf_stcf_tiebreak_first_min (ps : List Process) (remaining : List Nat)
    (t : Int) (key : Nat → Int) (j : Nat) (js : List Nat) :
    (∃ l1 l2, j :: js = l1 ++ pythonMin key j js :: l2 ∧
      (∀ i ∈ j :: js, key (pythonMin key j js) ≤ key i) ∧
      (∀ i ∈ l1, key (pythonMin key j js) < key i)) ∧
    (sjfAvailable ps remaining t).Sublist remaining ∧
    (stcfAvailable ps t).Sublist (List.range ps.length) := by
  refine ⟨?_, List.filter_sublist remaining, List.filter_sublist _⟩
  obtain ⟨l1, l2, hsplit, hle, hlt⟩ := pythonMin_decomp key js j
  exact ⟨l1, l2, hsplit, hle, hlt⟩

/-! ## Characterisation of the RR arrival scan -/

theorem contains_true_iff (l : List Int) (x : Int) : l.contains x = true ↔ x ∈ l := by
  simp [List.contains, List.elem_iff]

/-- The eligibility test of `rrAdmitStep`, as a Boolean predicate of the pid
set as it stood when the scan reached the candidate. -/
def rrEligibleB (ps : List Process) (t : Int) (inq : List Int) (excl : Option Nat)
    (i : Nat) : Bool :=
  decide ((getP ps i).arrival_time ≤ t ∧ ¬inq.contains (getP ps i).pid ∧
    0 < (getP ps i).remaining_time ∧ excl ≠ some i)

theorem rrAdmit_fold (ps : List Process) (t : Int) (excl : Option Nat) :
    ∀ (is : List Nat) (queue : List Nat) (inq : List Int),
      ((is.map (fun i => (getP ps i).pid)).Nodup) →
      is.foldl (rrAdmitStep ps t excl) (queue, inq) =
        (queue ++ is.filter (rrEligibleB ps t inq excl),
         inq ++ (is.filter (rrEligibleB ps t inq excl)).map (fun i => (getP ps i).pid)) := by
  intro is
  induction is with
  | nil => intro queue inq _; simp
  | cons i is ih =>
    intro queue inq hnd
    simp only [List.map_cons, List.nodup_cons] at hnd
    have hhead : (getP ps i).pid ∉ is.map (fun k => (getP ps k).pid) := hnd.1
    by_cases he : rrEligibleB ps t inq excl i = true
    · have hcond := of_decide_eq_true he
      rw [List.foldl_cons,
        show rrAdmitStep ps t excl (queue, inq) i =
          (queue ++ [i], inq ++ [(getP ps i).pid]) from by
            unfold rrAdmitStep; rw [if_pos hcond],
        ih _ _ hnd.2]
      have hfilter : is.filter (rrEligibleB ps t (inq ++ [(getP ps i).pid]) excl) =
          is.filter (rrEligibleB ps t inq excl) := by
        apply List.filter_congr
        intro k hk
        have hpidne : (getP ps k).pid ≠ (getP ps i).pid := by
          intro hh
          exact hhead (hh ▸ List.mem_map_of_mem _ hk)
        have hc : ((inq ++ [(getP ps i).pid]).contains (getP ps k).pid = true) ↔
            (inq.contains (getP ps k).pid = true) := by
          rw [contains_true_iff, contains_true_iff, List.mem_append,
            List.mem_singleton]
          constructor
          · rintro (h | h)
            · exact h
            · exact absurd h hpidne
          · exact fun h => Or.inl h
        unfold rrEligibleB
        exact decide_eq_decide.mpr (by rw [hc])
      rw [hfilter, List.filter_cons_of_pos he, List.map_cons]
      simp [List.append_assoc]
    · have hcond : ¬((getP ps i).arrival_time ≤ t ∧ ¬inq.contains (getP ps i).pid ∧
          0 < (getP ps i).remaining_time ∧ excl ≠ some i) :=
        fun hh => he (decide_eq_true hh)
      rw [List.foldl_cons,
        show rrAdmitStep ps t excl (queue, inq) i = (queue, inq) from by
          unfold rrAdmitStep; rw [if_neg hcond],
        ih _ _ hnd.2, List.filter_cons_of_neg he]

theorem range_map_getP {α : Type} (f : Process → α) (ps : List Process) :
    (List.range ps.length).map (fun i => f (getP ps i)) = ps.map f := by
  induction ps with
  | nil => rfl
  | cons q ps ih =>
    show (List.range (ps.length + 1)).map (fun i => f (getP (q :: ps) i)) = _
    rw [List.range_succ_eq_map, List.map_cons, List.map_map]
    have hmap : (List.range ps.length).map
          ((fun i => f (getP (q :: ps) i)) ∘ Nat.succ) =
        (List.range ps.length).map (fun i => f (getP ps i)) :=
      List.map_congr_left (fun i _ => rfl)
    rw [hmap, ih]
    rfl

theorem rrAdmit_eq (ps : List Process) (t : Int) (excl : Option Nat)
    (queue : List Nat) (inq : List Int) (hnd : (ps.map Process.pid).Nodup) :
    rrAdmit ps t excl queue inq =
      (queue ++ (List.range ps.length).filter (rrEligibleB ps t inq excl),
       inq ++ ((List.range ps.length).filter (rrEligibleB ps t inq excl)).map
         (fun i => (getP ps i).pid)) := by
  unfold rrAdmit
  exact rrAdmit_fold ps t excl (List.range ps.length) queue inq
    (by rw [range_map_getP Process.pid ps]; exact hnd)

theorem map_pid_set (ps : List Process) (j : Nat) (p : Process)
    (h : p.pid = (getP ps j).pid) :
    (ps.set j p).map Process.pid = ps.map Process.pid := by
  induction ps generalizing j with
  | nil => rfl
  | cons q ps ih =>
    cases j with
    | zero =>
      show p.pid :: ps.map Process.pid = q.pid :: ps.map Process.pid
      rw [show p.pid = q.pid from h]
    | succ j =>
      show q.pid :: (ps.set j p).map Process.pid = q.pid :: ps.map Process.pid
      rw [ih j h]

/-! ## Field lemmas for the RR per-process update -/

theorem rrExecP_eq (q t : Int) (p : Process) :
    rrExecP q t p =
      { p with
        first_run := if p.first_run = -1 then t else p.first_run
        response_time := if p.first_run = -1 then t - p.arrival_time else p.response_time
        remaining_time := p.remaining_time - min q p.remaining_time
        completion_time := if p.remaining_time - min q p.remaining_time = 0
          then t + min q p.remaining_time else p.completion_time } := by
  unfold rrExecP
  by_cases hfr : p.first_run = -1 <;>
    by_cases hdone : p.remaining_time - min q p.remaining_time = 0 <;>
      simp [hfr, hdone]

theorem rrExecP_spec (q t : Int) (p : Process) :
    Process.spec (rrExecP q t p) = Process.spec p := by
  rw [rrExecP_eq]
  rfl

theorem rrExecP_remaining (q t : Int) (p : Process) :
    (rrExecP q t p).remaining_time = p.remaining_time - min q p.remaining_time := by
  rw [rrExecP_eq]

theorem rrExecP_first_run_new (q t : Int) (p : Process) (h : p.first_run = -1) :
    (rrExecP q t p).first_run = t ∧ (rrExecP q t p).response_time = t - p.arrival_time := by
  rw [rrExecP_eq]
  constructor
  · show (if p.first_run = -1 then t else p.first_run) = t
    rw [if_pos h]
  · show (if p.first_run = -1 then t - p.arrival_time else p.response_time) = t - p.arrival_time
    rw [if_pos h]

theorem rrExecP_first_run_old (q t : Int) (p : Process) (h : ¬p.first_run = -1) :
    (rrExecP q t p).first_run = p.first_run ∧
      (rrExecP q t p).response_time = p.response_time := by
  rw [rrExecP_eq]
  constructor
  · show (if p.first_run = -1 then t else p.first_run) = p.first_run
    rw [if_neg h]
  · show (if p.first_run = -1 then t - p.arrival_time else p.response_time) = p.response_time
    rw [if_neg h]

theorem rrExecP_completion_done (q t : Int) (p : Process)
    (h : p.remaining_time - min q p.remaining_time = 0) :
    (rrExecP q t p).completion_time = t + min q p.remaining_time := by
  rw [rrExecP_eq]
  show (if p.remaining_time - min q p.remaining_time = 0
    then t + min q p.remaining_time else p.completion_time) = _
  rw [if_pos h]

theorem rrExecP_completion_not_done (q t : Int) (p : Process)
    (h : ¬(p.remaining_time - min q p.remaining_time = 0)) :
    (rrExecP q t p).completion_time = p.completion_time := by
  rw [rrExecP_eq]
  show (if p.remaining_time - min q p.remaining_time = 0
    then t + min q p.remaining_time else p.completion_time) = _
  rw [if_neg h]

theorem rrStep_cons (quantum : Int) (st : RRState) (j : Nat) (rest : List Nat)
    (inq2 : List Int)
    (hadm : rrAdmit st.ps st.t none st.queue st.in_queue = (j :: rest, inq2)) :
    rrStep quantum st = rrBusy quantum st j rest inq2 := by
  unfold rrStep
  rw [hadm]

theorem rrStep_nil (quantum : Int) (st : RRState) (inq2 : List Int)
    (hadm : rrAdmit st.ps st.t none st.queue st.in_queue = ([], inq2)) :
    rrStep quantum st = { st with queue := [], in_queue := inq2, t := st.t + 1 } := by
  unfold rrStep
  rw [hadm]

/-- The processes admitted by the post-execution arrival scan of one RR busy
step: exactly those that have arrived by the end of the slice, are not in
the pid set (after the dequeued pid was removed), still have work, and are
not the process that just ran — in process-list order. -/
def rrNewcomers (quantum : Int) (st : RRState) (j : Nat) (inq2 : List Int) : List Nat :=
  (List.range st.ps.length).filter (fun i =>
    decide ((getP st.ps i).arrival_time ≤ st.t + min quantum (getP st.ps j).remaining_time ∧
      ¬(inq2.erase (getP st.ps j).pid).contains (getP st.ps i).pid ∧
      0 < (getP st.ps i).remaining_time ∧ i ≠ j))

/-- The admission filter of the post-execution scan, rewritten over the
pre-step process list: only the fields of processes other than `j` are
read, and those are unchanged by the update of `j`. -/
theorem rrNewcomers_eq (quantum : Int) (st : RRState) (j : Nat) (inq2 : List Int) :
    (List.range st.ps.length).filter
      (rrEligibleB (st.ps.set j (rrExecP quantum st.t (getP st.ps j)))
        (st.t + min quantum (getP st.ps j).remaining_time)
        (inq2.erase (getP st.ps j).pid) (some j)) =
    rrNewcomers quantum st j inq2 := by
  apply List.filter_congr
  intro i _
  by_cases hij : i = j
  · subst hij
    unfold rrEligibleB
    apply Eq.trans (decide_eq_false ?_) (decide_eq_false ?_).symm
    · rintro ⟨-, -, -, h4⟩
      exact h4 rfl
    · rintro ⟨-, -, -, h4⟩
      exact h4 rfl
  · have hgi : getP (st.ps.set j (rrExecP quantum st.t (getP st.ps j))) i =
        getP st.ps i := getP_set_ne _ i j _ hij
    unfold rrEligibleB
    rw [hgi]
    apply decide_eq_decide.mpr
    constructor
    · rintro ⟨a, b, c, -⟩
      exact ⟨a, b, c, hij⟩
    · rintro ⟨a, b, c, -⟩
      exact ⟨a, b, c, fun hh => hij (Option.some.inj hh).symm⟩

/-- C6: one busy Round-Robin step, with the admission scan having produced
front process `j` and pid set `inq2`.  The step executes `j` for exactly
`min(quantum, remaining_time)` units, logs exactly that slice, admits the
newly eligible processes in process-list order (excluding `j`) to the back
of the queue, and only then re-queues `j` — unless its remaining time
reached zero, in which case `j` is completed at the current time instead
of being re-queued. -/
theorem rr_step_semantics (quantum : Int) (st : RRState) (j : Nat)
    (rest : List Nat) (inq2 : List Int)
    (hnd : (st.ps.map Process.pid).Nodup) (hj : j < st.ps.length)
    (hadm : rrAdmit st.ps st.t none st.queue st.in_queue = (j :: rest, inq2)) :
    (rrStep quantum st).t = st.t + min quantum (getP st.ps j).remaining_time ∧
    (rrStep quantum st).tl = st.tl ++ [(Label.P (getP st.ps j).pid, st.t,
      st.t + min quantum (getP st.ps j).remaining_time)] ∧
    (getP (rrStep quantum st).ps j).remaining_time =
      (getP st.ps j).remaining_time - min quantum (getP st.ps j).remaining_time ∧
    ((getP st.ps j).first_run = -1 → (getP (rrStep quantum st).ps j).first_run = st.t) ∧
    ((getP st.ps j).remaining_time - min quantum (getP st.ps j).remaining_time = 0 →
      (rrStep quantum st).queue = rest ++ rrNewcomers quantum st j inq2 ∧
      (rrStep quantum st).completed = st.completed ++ [j] ∧
      (getP (rrStep quantum st).ps j).completion_time =
        st.t + min quantum (getP st.ps j).remaining_time) ∧
    (¬((getP st.ps j).remaining_time - min quantum (getP st.ps j).remaining_time = 0) →
      (rrStep quantum st).queue = (rest ++ rrNewcomers quantum st j inq2) ++ [j] ∧
      (rrStep quantum st).completed = st.completed) := by
  rw [rrStep_cons quantum st j rest inq2 hadm]
  have hnd1 : ((st.ps.set j (rrExecP quantum st.t (getP st.ps j))).map Process.pid).Nodup := by
    rw [map_pid_set st.ps j _ (spec_pid (rrExecP_spec quantum st.t (getP st.ps j)))]
    exact hnd
  have hset_self : getP (st.ps.set j (rrExecP quantum st.t (getP st.ps j))) j =
      rrExecP quantum st.t (getP st.ps j) := getP_set_self st.ps j _ hj
  have hq2 := rrAdmit_eq (st.ps.set j (rrExecP quantum st.t (getP st.ps j)))
    (st.t + min quantum (getP st.ps j).remaining_time) (some j) rest
    (inq2.erase (getP st.ps j).pid) hnd1
  rw [List.length_set] at hq2
  rw [rrNewcomers_eq quantum st j inq2] at hq2
  by_cases hdone :
      (getP st.ps j).remaining_time - min quantum (getP st.ps j).remaining_time = 0
  · simp only [rrBusy]
    rw [if_pos hdone]
    refine ⟨rfl, rfl, ?_, ?_, ?_, ?_⟩
    · show (getP (st.ps.set j (rrExecP quantum st.t (getP st.ps j))) j).remaining_time = _
      rw [hset_self, rrExecP_remaining]
    · intro hfr
      show (getP (st.ps.set j (rrExecP quantum st.t (getP st.ps j))) j).first_run = st.t
      rw [hset_self]
      exact (rrExecP_first_run_new quantum st.t _ hfr).1
    · intro _
      refine ⟨?_, rfl, ?_⟩
      · show (rrAdmit (st.ps.set j (rrExecP quantum st.t (getP st.ps j)))
          (st.t + min quantum (getP st.ps j).remaining_time) (some j) rest
          (inq2.erase (getP st.ps j).pid)).1 = _
        rw [hq2]
      · show (getP (st.ps.set j (rrExecP quantum st.t (getP st.ps j))) j).completion_time = _
        rw [hset_self]
        exact rrExecP_completion_done quantum st.t _ hdone
    · intro hne
      exact absurd hdone hne
  · simp only [rrBusy]
    rw [if_neg hdone]
    refine ⟨rfl, rfl, ?_, ?_, ?_, ?_⟩
    · show (getP (st.ps.set j (rrExecP quantum st.t (getP st.ps j))) j).remaining_time = _
      rw [hset_self, rrExecP_remaining]
    · intro hfr
      show (getP (st.ps.set j (rrExecP quantum st.t (getP st.ps j))) j).first_run = st.t
      rw [hset_self]
      exact (rrExecP_first_run_new quantum st.t _ hfr).1
    · intro h
      exact absurd h hdone
    · intro _
      refine ⟨?_, rfl⟩
      show (rrAdmit (st.ps.set j (rrExecP quantum st.t (getP st.ps j)))
          (st.t + min quantum (getP st.ps j).remaining_time) (some j) rest
          (inq2.erase (getP st.ps j).pid)).1 ++ [j] = _
      rw [hq2]

/-- The RR state of the worked example just after queue seeding: P1 queued,
clock 0.  The admission scan returns it as the front process. -/
def rrC6State : RRState :=
  { ps := (reset_processes exampleSim).processes
    queue := [0], in_queue := [1], completed := [], t := 0, tl := [] }

/-- Witness for C6 on the worked example: P1 (burst 5, quantum 3) runs for
exactly 3 units, is not completed, and is re-queued behind the newly
admitted arrivals. -/
theorem rr_step_semantics_witness :
    (rrStep 3 rrC6State).t = rrC6State.t + min 3 (getP rrC6State.ps 0).remaining_time ∧
    (rrStep 3 rrC6State).tl = rrC6State.tl ++ [(Label.P (getP rrC6State.ps 0).pid,
      rrC6State.t, rrC6State.t + min 3 (getP rrC6State.ps 0).remaining_time)] ∧
    (getP (rrStep 3 rrC6State).ps 0).remaining_time =
      (getP rrC6State.ps 0).remaining_time - min 3 (getP rrC6State.ps 0).remaining_time ∧
    (getP (rrStep 3 rrC6State).ps 0).first_run = rrC6State.t ∧
    (rrStep 3 rrC6State).queue = ([] ++ rrNewcomers 3 rrC6State 0 [1]) ++ [0] ∧
    (rrStep 3 rrC6State).completed = rrC6State.completed := by
  obtain ⟨h1, h2, h3, h4, -, h6⟩ :=
    rr_step_semantics 3 rrC6State 0 [] [1] (by decide) (by decide) (by decide)
  obtain ⟨h6a, h6b⟩ := h6 (by decide)
  exact ⟨h1, h2, h3, h4 (by decide), h6a, h6b⟩

/-! ## The per-process facts that survive a completed run -/

/-- A completed process is well-formed: it first ran no earlier than its
arrival, it completed no earlier than first run plus burst, and its
response time was recorded as first run minus arrival. -/
def GoodP (p : Process) : Prop :=
  p.arrival_time ≤ p.first_run ∧
  p.first_run + p.burst_time ≤ p.completion_time ∧
  p.response_time = p.first_run - p.arrival_time

theorem calculate_metrics_good (ps : List Process) (h : ∀ p ∈ ps, GoodP p) :
    ∀ p ∈ calculate_metrics ps,
      0 ≤ p.waiting_time ∧ 0 ≤ p.response_time ∧
      p.response_time ≤ p.waiting_time ∧
      p.burst_time ≤ p.turnaround_time ∧
      p.turnaround_time = p.completion_time - p.arrival_time ∧
      p.waiting_time = p.turnaround_time - p.burst_time ∧
      p.response_time = p.first_run - p.arrival_time := by
  intro p hp
  unfold calculate_metrics at hp
  obtain ⟨q, hq, rfl⟩ := List.mem_map.mp hp
  obtain ⟨h1, h2, h3⟩ := h q hq
  refine ⟨?_, ?_, ?_, ?_, rfl, by ring, h3⟩
  · show 0 ≤ q.completion_time - q.arrival_time - q.burst_time
    omega
  · show 0 ≤ q.response_time
    omega
  · show q.response_time ≤ q.completion_time - q.arrival_time - q.burst_time
    omega
  · show q.burst_time ≤ q.completion_time - q.arrival_time
    omega

theorem specsOf_calculate_metrics (ps : List Process) :
    specsOf (calculate_metrics ps) = specsOf ps := by
  unfold specsOf calculate_metrics
  rw [List.map_map]
  exact List.map_congr_left (fun p _ => rfl)

theorem specsOf_reset (s : SchedulerSimulator) :
    specsOf (reset_processes s).processes = specsOf s.original_processes := by
  unfold specsOf reset_processes
  rw [List.map_map]
  exact List.map_congr_left (fun p _ => rfl)

theorem validInput_of_specsOf {ps qs : List Process}
    (h : specsOf ps = specsOf qs) (hv : ValidInput qs) : ValidInput ps := by
  obtain ⟨hb, ha, hnd⟩ := hv
  refine ⟨?_, ?_, ?_⟩
  · intro p hp
    obtain ⟨i, hi, rfl⟩ := mem_getP ps p hp
    have := getP_spec_eq h i
    rw [spec_burst this]
    exact hb _ (getP_mem qs i (by rw [← specsOf_length h]; exact hi))
  · intro p hp
    obtain ⟨i, hi, rfl⟩ := mem_getP ps p hp
    have := getP_spec_eq h i
    rw [spec_arrival this]
    exact ha _ (getP_mem qs i (by rw [← specsOf_length h]; exact hi))
  · have h1 : ps.map Process.pid = ((specsOf ps).map (fun x => x.1)) := by
      simp only [specsOf, List.map_map]
      exact (List.map_congr_left (fun p _ => rfl)).symm
    have h2 : qs.map Process.pid = ((specsOf qs).map (fun x => x.1)) := by
      simp only [specsOf, List.map_map]
      exact (List.map_congr_left (fun p _ => rfl)).symm
    rw [h1, h]
    rw [h2] at hnd
    exact hnd

theorem map_pid_of_specsOf {ps qs : List Process} (h : specsOf ps = specsOf qs) :
    ps.map Process.pid = qs.map Process.pid := by
  have h1 : ps.map Process.pid = ((specsOf ps).map (fun x => x.1)) := by
    simp only [specsOf, List.map_map]
    exact (List.map_congr_left (fun p _ => rfl)).symm
  have h2 : qs.map Process.pid = ((specsOf qs).map (fun x => x.1)) := by
    simp only [specsOf, List.map_map]
    exact (List.map_congr_left (fun p _ => rfl)).symm
  rw [h1, h, ← h2]

/-! ## Field lemmas for the STCF per-process update -/

theorem stcfExecP_eq (t : Int) (p : Process) :
    stcfExecP t p =
      { p with
        first_run := if p.first_run = -1 then t else p.first_run
        response_time := if p.first_run = -1 then t - p.arrival_time else p.response_time
        remaining_time := p.remaining_time - 1
        completion_time := if p.remaining_time - 1 = 0 then t + 1 else p.completion_time } := by
  unfold stcfExecP
  by_cases hfr : p.first_run = -1 <;>
    by_cases hdone : p.remaining_time - 1 = 0 <;>
      simp [hfr, hdone]

theorem stcfExecP_spec (t : Int) (p : Process) :
    Process.spec (stcfExecP t p) = Process.spec p := by
  rw [stcfExecP_eq]
  rfl

/-! ## FIFO: the fold in closed form -/

/-- The list of mutated processes a FIFO pass over `l` produces, starting
the clock at `t`. -/
def fifoRun (t : Int) : List Process → List Process
  | [] => []
  | p :: l => fifoUpd p (fifoT t p) :: fifoRun (fifoT t p + p.burst_time) l

theorem fifo_fold_done : ∀ (l : List Process) (done : List Process)
    (tl : List TimelineEntry) (t : Int),
    (l.foldl fifoStep (done, tl, t)).1 = done ++ fifoRun t l := by
  intro l
  induction l with
  | nil => intro done tl t; simp [fifoRun]
  | cons p l ih =>
    intro done tl t
    rw [List.foldl_cons]
    show (l.foldl fifoStep (done ++ [fifoUpd p (fifoT t p)], _, fifoT t p + p.burst_time)).1 = _
    rw [ih]
    simp [fifoRun]

theorem fifoT_ge_arrival (t : Int) (p : Process) : p.arrival_time ≤ fifoT t p := by
  unfold fifoT
  split
  · exact le_refl _
  · omega

theorem fifoUpd_spec (p : Process) (t1 : Int) :
    Process.spec (fifoUpd p t1) = Process.spec p := rfl

theorem fifoUpd_pid (p : Process) (t1 : Int) : (fifoUpd p t1).pid = p.pid := rfl

theorem fifoRun_specs : ∀ (l : List Process) (t : Int),
    specsOf (fifoRun t l) = specsOf l := by
  intro l
  induction l with
  | nil => intro t; rfl
  | cons p l ih =>
    intro t
    show Process.spec (fifoUpd p (fifoT t p)) :: specsOf (fifoRun (fifoT t p + p.burst_time) l) =
      Process.spec p :: specsOf l
    rw [fifoUpd_spec, ih]

theorem fifoRun_good : ∀ (l : List Process) (t : Int), ∀ p ∈ fifoRun t l, GoodP p := by
  intro l
  induction l with
  | nil => intro t p hp; cases hp
  | cons q l ih =>
    intro t p hp
    rcases List.mem_cons.mp hp with rfl | hp
    · refine ⟨fifoT_ge_arrival t q, le_refl _, rfl⟩
    · exact ih _ p hp

theorem fifo_fold_nonIdle : ∀ (l : List Process) (done : List Process)
    (tl : List TimelineEntry) (t : Int),
    nonIdleLen ((l.foldl fifoStep (done, tl, t)).2.1) = nonIdleLen tl + totalBurst l := by
  intro l
  induction l with
  | nil =>
    intro done tl t
    show nonIdleLen tl = nonIdleLen tl + totalBurst []
    show nonIdleLen tl = nonIdleLen tl + 0
    ring
  | cons p l ih =>
    intro done tl t
    rw [List.foldl_cons]
    show nonIdleLen ((l.foldl fifoStep (_, (if t < p.arrival_time
        then tl ++ [(Label.IDLE, t, p.arrival_time)] else tl) ++
        [(Label.P p.pid, fifoT t p, fifoT t p + p.burst_time)],
        fifoT t p + p.burst_time)).2.1) = _
    rw [ih]
    have h1 : nonIdleLen ((if t < p.arrival_time
        then tl ++ [(Label.IDLE, t, p.arrival_time)] else tl) ++
        [(Label.P p.pid, fifoT t p, fifoT t p + p.burst_time)]) =
        nonIdleLen tl + p.burst_time := by
      rw [nonIdleLen_append, nonIdleLen_proc]
      by_cases hlt : t < p.arrival_time
      · rw [if_pos hlt, nonIdleLen_append, nonIdleLen_idle]
        ring
      · rw [if_neg hlt]
        ring
    rw [h1]
    show nonIdleLen tl + p.burst_time + totalBurst l =
      nonIdleLen tl + (p.burst_time + totalBurst l)
    ring

theorem fifo_fold_chain : ∀ (l : List Process) (done : List Process)
    (tl : List TimelineEntry) (t : Int),
    (∀ p ∈ l, 0 < p.burst_time) →
    ((done ++ l).map Process.pid).Nodup →
    chainTo 0 tl t →
    mergedB tl = true →
    (lastLabel tl = none ∨ ∃ p ∈ done, lastLabel tl = some (Label.P p.pid)) →
    chainTo 0 ((l.foldl fifoStep (done, tl, t)).2.1)
        ((l.foldl fifoStep (done, tl, t)).2.2) ∧
    mergedB ((l.foldl fifoStep (done, tl, t)).2.1) = true := by
  intro l
  induction l with
  | nil =>
    intro done tl t _ _ hc hm _
    exact ⟨hc, hm⟩
  | cons p l ih =>
    intro done tl t hb hnd hc hm hlast
    have hbp : 0 < p.burst_time := hb p (List.mem_cons_self _ _)
    have hfresh : ∀ q ∈ done, q.pid ≠ p.pid := by
      intro q hq heq
      rw [List.map_append] at hnd
      have hdisj := (List.nodup_append.mp hnd).2.2
      exact hdisj (List.mem_map_of_mem _ hq)
        (heq ▸ List.mem_map_of_mem Process.pid (List.mem_cons_self p l))
    have hc1 : chainTo 0 (if t < p.arrival_time
        then tl ++ [(Label.IDLE, t, p.arrival_time)] else tl) (fifoT t p) := by
      by_cases hlt : t < p.arrival_time
      · rw [if_pos hlt]
        unfold fifoT
        rw [if_pos hlt]
        exact chainTo_append Label.IDLE hc hlt
      · rw [if_neg hlt]
        unfold fifoT
        rw [if_neg hlt]
        exact hc
    have hl1 : lastLabel (if t < p.arrival_time
        then tl ++ [(Label.IDLE, t, p.arrival_time)] else tl) ≠
        some (Label.P p.pid) := by
      by_cases hlt : t < p.arrival_time
      · rw [if_pos hlt, lastLabel_append]
        simp
      · rw [if_neg hlt]
        rcases hlast with h | ⟨q, hq, h⟩
        · rw [h]; simp
        · rw [h]
          intro hh
          have h2 := Option.some.inj hh
          have h3 : q.pid = p.pid := by injection h2
          exact hfresh q hq h3
    have hm1 : mergedB (if t < p.arrival_time
        then tl ++ [(Label.IDLE, t, p.arrival_time)] else tl) = true := by
      by_cases hlt : t < p.arrival_time
      · rw [if_pos hlt]
        apply mergedB_append _ _ _ _ hm
        rcases hlast with h | ⟨q, hq, h⟩ <;> rw [h] <;> simp
      · rw [if_neg hlt]
        exact hm
    have hc2 : chainTo 0 ((if t < p.arrival_time
        then tl ++ [(Label.IDLE, t, p.arrival_time)] else tl) ++
        [(Label.P p.pid, fifoT t p, fifoT t p + p.burst_time)])
        (fifoT t p + p.burst_time) :=
      chainTo_append _ hc1 (by omega)
    have hm2 : mergedB ((if t < p.arrival_time
        then tl ++ [(Label.IDLE, t, p.arrival_time)] else tl) ++
        [(Label.P p.pid, fifoT t p, fifoT t p + p.burst_time)]) = true :=
      mergedB_append _ _ _ _ hm1 hl1
    have hnd' : (((done ++ [fifoUpd p (fifoT t p)]) ++ l).map Process.pid).Nodup := by
      have heq : ((done ++ [fifoUpd p (fifoT t p)]) ++ l).map Process.pid =
          (done ++ p :: l).map Process.pid := by
        simp [List.map_append, fifoUpd_pid]
      rw [heq]
      exact hnd
    have hlast' : lastLabel ((if t < p.arrival_time
        then tl ++ [(Label.IDLE, t, p.arrival_time)] else tl) ++
        [(Label.P p.pid, fifoT t p, fifoT t p + p.burst_time)]) = none ∨
        ∃ q ∈ done ++ [fifoUpd p (fifoT t p)], lastLabel ((if t < p.arrival_time
          then tl ++ [(Label.IDLE, t, p.arrival_time)] else tl) ++
          [(Label.P p.pid, fifoT t p, fifoT t p + p.burst_time)]) =
          some (Label.P q.pid) := by
      refine Or.inr ⟨fifoUpd p (fifoT t p),
        List.mem_append_right _ (List.mem_cons_self _ _), ?_⟩
      rw [lastLabel_append, fifoUpd_pid]
    rw [List.foldl_cons]
    exact ih (done ++ [fifoUpd p (fifoT t p)])
      ((if t < p.arrival_time then tl ++ [(Label.IDLE, t, p.arrival_time)] else tl) ++
        [(Label.P p.pid, fifoT t p, fifoT t p + p.burst_time)])
      (fifoT t p + p.burst_time)
      (fun q hq => hb q (List.mem_cons_of_mem p hq)) hnd' hc2 hm2 hlast'

/-! ## Stability of the arrival sort -/

theorem sortByArrival_perm (l : List Process) : (sortByArrival l).Perm l :=
  List.perm_insertionSort arrivalLE l

theorem sortByArrival_sorted (l : List Process) :
    (sortByArrival l).Pairwise arrivalLE :=
  List.sorted_insertionSort arrivalLE l

theorem filter_orderedInsert (a : Int) (x : Process) :
    ∀ (t : List Process),
      (List.orderedInsert arrivalLE x t).filter (fun p => decide (p.arrival_time = a)) =
        if x.arrival_time = a
        then x :: t.filter (fun p => decide (p.arrival_time = a))
        else t.filter (fun p => decide (p.arrival_time = a)) := by
  intro t
  induction t with
  | nil =>
    show [x].filter _ = _
    by_cases hx : x.arrival_time = a
    · rw [if_pos hx, List.filter_cons_of_pos (by simp [hx])]
    · rw [if_neg hx, List.filter_cons_of_neg (by simp [hx])]
  | cons b t ih =>
    show (if arrivalLE x b then x :: b :: t
        else b :: List.orderedInsert arrivalLE x t).filter _ = _
    by_cases hr : arrivalLE x b
    · rw [if_pos hr]
      by_cases hx : x.arrival_time = a
      · rw [if_pos hx, List.filter_cons_of_pos (by simp [hx])]
      · rw [if_neg hx, List.filter_cons_of_neg (by simp [hx])]
    · rw [if_neg hr]
      have hba : b.arrival_time < x.arrival_time := by
        have : ¬(x.arrival_time ≤ b.arrival_time) := hr
        omega
      by_cases hx : x.arrival_time = a
      · have hb2 : ¬(b.arrival_time = a) := by omega
        rw [if_pos hx, List.filter_cons_of_neg (by simp [hb2]), ih, if_pos hx,
          List.filter_cons_of_neg (by simp [hb2])]
      · rw [if_neg hx]
        by_cases hb2 : b.arrival_time = a
        · rw [List.filter_cons_of_pos (by simp [hb2]), ih, if_neg hx,
            List.filter_cons_of_pos (by simp [hb2])]
        · rw [List.filter_cons_of_neg (by simp [hb2]), ih, if_neg hx,
            List.filter_cons_of_neg (by simp [hb2])]

theorem filter_sortByArrival (a : Int) : ∀ (l : List Process),
    (sortByArrival l).filter (fun p => decide (p.arrival_time = a)) =
      l.filter (fun p => decide (p.arrival_time = a)) := by
  intro l
  induction l with
  | nil => rfl
  | cons x l ih =>
    show (List.orderedInsert arrivalLE x
        (List.insertionSort arrivalLE l)).filter _ = _
    rw [filter_orderedInsert]
    by_cases hx : x.arrival_time = a
    · rw [if_pos hx, List.filter_cons_of_pos (by simp [hx])]
      rw [show List.insertionSort arrivalLE l = sortByArrival l from rfl, ih]
    · rw [if_neg hx, List.filter_cons_of_neg (by simp [hx])]
      rw [show List.insertionSort arrivalLE l = sortByArrival l from rfl, ih]

/-! ## SJF: step analysis and loop invariant -/

theorem sjf_avail_mem {ps : List Process} {rem : List Nat} {t : Int} {j : Nat}
    (h : j ∈ sjfAvailable ps rem t) :
    j ∈ rem ∧ (getP ps j).arrival_time ≤ t := by
  unfold sjfAvailable at h
  have h2 := List.mem_filter.mp h
  exact ⟨h2.1, of_decide_eq_true h2.2⟩

theorem sjf_avail_empty {ps : List Process} {rem : List Nat} {t : Int}
    (h : sjfAvailable ps rem t = []) :
    ∀ k ∈ rem, ¬((getP ps k).arrival_time ≤ t) := by
  intro k hk hle
  have hmem : k ∈ sjfAvailable ps rem t :=
    List.mem_filter.mpr ⟨hk, decide_eq_true hle⟩
  rw [h] at hmem
  cases hmem

theorem sjfNextArrival_mem (ps : List Process) (i : Nat) (rest : List Nat) :
    ∃ k ∈ i :: rest, (getP ps k).arrival_time = sjfNextArrival ps i rest := by
  have hmem := pythonMin_mem id ((getP ps i).arrival_time)
    (rest.map (fun k => (getP ps k).arrival_time))
  have hmem' : sjfNextArrival ps i rest ∈
      (i :: rest).map (fun k => (getP ps k).arrival_time) := by
    simpa [sjfNextArrival] using hmem
  obtain ⟨k, hk, hke⟩ := List.mem_map.mp hmem'
  exact ⟨k, hk, hke⟩

theorem sjf_avail_nonempty_after_advance (ps : List Process) (i : Nat)
    (rest : List Nat) :
    ∃ j js, sjfAvailable ps (i :: rest) (sjfNextArrival ps i rest) = j :: js := by
  obtain ⟨k, hk, hke⟩ := sjfNextArrival_mem ps i rest
  have hkin : k ∈ sjfAvailable ps (i :: rest) (sjfNextArrival ps i rest) :=
    List.mem_filter.mpr ⟨hk, decide_eq_true (le_of_eq hke)⟩
  cases he : sjfAvailable ps (i :: rest) (sjfNextArrival ps i rest) with
  | nil => rw [he] at hkin; cases hkin
  | cons j js => exact ⟨j, js, rfl⟩

theorem sjfStep_eq_dispatch (st : SjfState) (i : Nat) (rest : List Nat)
    (j : Nat) (js : List Nat) (hrem : st.remaining = i :: rest)
    (havail : sjfAvailable st.ps st.remaining st.t = j :: js) :
    sjfStep st = sjfDispatch st
      (pythonMin (fun k => (getP st.ps k).burst_time) j js) := by
  obtain ⟨ps, rem, comp, t, tl⟩ := st
  simp only at hrem havail ⊢
  subst hrem
  simp only [sjfStep]
  rw [show (sjfAvailable ps (i :: rest) t).isEmpty = false from by rw [havail]; rfl]
  simp only [Bool.false_eq_true, if_false]
  rw [havail]

theorem sjfStep_eq_idle (st : SjfState) (i : Nat) (rest : List Nat)
    (j : Nat) (js : List Nat) (hrem : st.remaining = i :: rest)
    (hempty : sjfAvailable st.ps st.remaining st.t = [])
    (havail1 : sjfAvailable st.ps st.remaining
      (sjfNextArrival st.ps i rest) = j :: js) :
    sjfStep st = sjfDispatch (sjfAdvance st i rest)
      (pythonMin (fun k => (getP st.ps k).burst_time) j js) := by
  obtain ⟨ps, rem, comp, t, tl⟩ := st
  simp only at hrem hempty havail1 ⊢
  subst hrem
  simp only [sjfStep, sjfAdvance]
  rw [show (sjfAvailable ps (i :: rest) t).isEmpty = true from by rw [hempty]; rfl]
  simp only [if_true]
  rw [havail1]

theorem burst_pos_of_valid {ps ps0 : List Process}
    (hspecs : specsOf ps = specsOf ps0) (hv : ValidInput ps0) {i : Nat}
    (hi : i < ps.length) : 0 < (getP ps i).burst_time := by
  rw [spec_burst (getP_spec_eq hspecs i)]
  exact hv.1 _ (getP_mem ps0 i (by rw [← specsOf_length hspecs]; exact hi))

theorem pid_nodup_of_valid {ps ps0 : List Process}
    (hspecs : specsOf ps = specsOf ps0) (hv : ValidInput ps0) :
    (ps.map Process.pid).Nodup := by
  rw [map_pid_of_specsOf hspecs]
  exact hv.2.2

/-- The loop invariant of `sjf_schedule`, relative to the reset process list
`ps0`: the spec fields never change; `remaining` holds valid distinct
indices; the timeline tiles `[0, t)` and is merged, ending (if at all) with
an idle gap or an already-dispatched process; the logged work plus the
bursts still in `remaining` account for all work; and every dispatched
process carries correct first-run/completion/response data. -/
def SjfInv (ps0 : List Process) (st : SjfState) : Prop :=
  specsOf st.ps = specsOf ps0 ∧
  (∀ i ∈ st.remaining, i < st.ps.length) ∧
  st.remaining.Nodup ∧
  chainTo 0 st.tl st.t ∧
  mergedB st.tl = true ∧
  (lastLabel st.tl = none ∨ ∃ k, k < st.ps.length ∧ k ∉ st.remaining ∧
    lastLabel st.tl = some (Label.P (getP st.ps k).pid)) ∧
  nonIdleLen st.tl + sumBurstOf st.ps st.remaining = totalBurst ps0 ∧
  (∀ i, i < st.ps.length → i ∉ st.remaining → GoodP (getP st.ps i))

theorem sjfDispatch_inv (ps0 : List Process) (hv : ValidInput ps0)
    (st : SjfState) (jm : Nat)
    (hspecs : specsOf st.ps = specsOf ps0)
    (hremlt : ∀ i ∈ st.remaining, i < st.ps.length)
    (hremnd : st.remaining.Nodup)
    (hchain : chainTo 0 st.tl st.t)
    (hmerged : mergedB st.tl = true)
    (hlast : lastLabel st.tl = none ∨ lastLabel st.tl = some Label.IDLE ∨
      ∃ k, k < st.ps.length ∧ k ∉ st.remaining ∧
        lastLabel st.tl = some (Label.P (getP st.ps k).pid))
    (hsum : nonIdleLen st.tl + sumBurstOf st.ps st.remaining = totalBurst ps0)
    (hgood : ∀ i, i < st.ps.length → i ∉ st.remaining → GoodP (getP st.ps i))
    (hjm : jm ∈ st.remaining)
    (harr : (getP st.ps jm).arrival_time ≤ st.t) :
    SjfInv ps0 (sjfDispatch st jm) := by
  have hjmlt : jm < st.ps.length := hremlt jm hjm
  have hbpos : 0 < (getP st.ps jm).burst_time := burst_pos_of_valid hspecs hv hjmlt
  have hpidnd : (st.ps.map Process.pid).Nodup := pid_nodup_of_valid hspecs hv
  have hspec1 : Process.spec ({ getP st.ps jm with
      response_time := st.t - (getP st.ps jm).arrival_time
      first_run := st.t
      completion_time := st.t + (getP st.ps jm).burst_time }) =
      Process.spec (getP st.ps jm) := rfl
  refine ⟨?_, ?_, ?_, ?_, ?_, ?_, ?_, ?_⟩
  · show specsOf (st.ps.set jm _) = specsOf ps0
    rw [specsOf_set _ _ _ hspec1]
    exact hspecs
  · show ∀ i ∈ st.remaining.erase jm, i < (st.ps.set jm _).length
    intro i hi
    rw [List.length_set]
    exact hremlt i (List.erase_subset _ _ hi)
  · exact List.Nodup.erase jm hremnd
  · show chainTo 0 (st.tl ++ [(Label.P (getP st.ps jm).pid, st.t,
      st.t + (getP st.ps jm).burst_time)]) (st.t + (getP st.ps jm).burst_time)
    exact chainTo_append _ hchain (by omega)
  · show mergedB (st.tl ++ [(Label.P (getP st.ps jm).pid, st.t,
      st.t + (getP st.ps jm).burst_time)]) = true
    apply mergedB_append _ _ _ _ hmerged
    rcases hlast with h | h | ⟨k, hk, hknot, h⟩
    · rw [h]; simp
    · rw [h]; simp
    · rw [h]
      intro hh
      have h2 : (getP st.ps k).pid = (getP st.ps jm).pid := by
        have := Option.some.inj hh
        injection this
      have := pid_inj_of_nodup hpidnd hk hjmlt h2
      exact hknot (this ▸ hjm)
  · refine Or.inr ⟨jm, ?_, ?_, ?_⟩
    · show jm < (st.ps.set jm _).length
      rw [List.length_set]
      exact hjmlt
    · show jm ∉ st.remaining.erase jm
      intro hh
      exact absurd ((List.Nodup.mem_erase_iff hremnd).mp hh).1 (by simp)
    · show lastLabel (st.tl ++ [(Label.P (getP st.ps jm).pid, st.t,
        st.t + (getP st.ps jm).burst_time)]) = some (Label.P (getP (st.ps.set jm _) jm).pid)
      rw [lastLabel_append, getP_set_self _ _ _ hjmlt]
  · show nonIdleLen (st.tl ++ [(Label.P (getP st.ps jm).pid, st.t,
        st.t + (getP st.ps jm).burst_time)]) +
      sumBurstOf (st.ps.set jm _) (st.remaining.erase jm) = totalBurst ps0
    rw [nonIdleLen_append, nonIdleLen_proc]
    have hcongr : sumBurstOf (st.ps.set jm ({ getP st.ps jm with
        response_time := st.t - (getP st.ps jm).arrival_time
        first_run := st.t
        completion_time := st.t + (getP st.ps jm).burst_time }))
        (st.remaining.erase jm) = sumBurstOf st.ps (st.remaining.erase jm) := by
      apply sumBurstOf_congr
      intro i hi
      have hine : i ≠ jm := ((List.Nodup.mem_erase_iff hremnd).mp hi).1
      rw [getP_set_ne _ _ _ _ hine]
    rw [hcongr]
    have hsplit := sumBurstOf_erase st.ps st.remaining jm hjm
    omega
  · intro i hilt hinot
    have hps : (sjfDispatch st jm).ps = st.ps.set jm ({ getP st.ps jm with
        response_time := st.t - (getP st.ps jm).arrival_time
        first_run := st.t
        completion_time := st.t + (getP st.ps jm).burst_time }) := rfl
    have hremq : (sjfDispatch st jm).remaining = st.remaining.erase jm := rfl
    rw [hps, List.length_set] at hilt
    rw [hremq] at hinot
    rw [hps]
    by_cases hij : i = jm
    · subst hij
      rw [getP_set_self _ _ _ hjmlt]
      refine ⟨?_, ?_, ?_⟩
      · show (getP st.ps i).arrival_time ≤ st.t
        exact harr
      · show st.t + (getP st.ps i).burst_time ≤ st.t + (getP st.ps i).burst_time
        exact le_refl _
      · show st.t - (getP st.ps i).arrival_time = st.t - (getP st.ps i).arrival_time
        rfl
    · rw [getP_set_ne _ _ _ _ hij]
      apply hgood i hilt
      intro hmem
      exact hinot ((List.Nodup.mem_erase_iff hremnd).mpr ⟨hij, hmem⟩)

theorem sjfStep_inv (ps0 : List Process) (hv : ValidInput ps0) :
    ∀ st, SjfInv ps0 st → sjfCond st = true → SjfInv ps0 (sjfStep st) := by
  intro st hinv hcond
  obtain ⟨hspecs, hremlt, hremnd, hchain, hmerged, hlast, hsum, hgood⟩ := hinv
  cases hrc : st.remaining with
  | nil =>
    rw [sjfCond, hrc] at hcond
    simp at hcond
  | cons i rest =>
    cases havail : sjfAvailable st.ps st.remaining st.t with
    | cons j js =>
      rw [sjfStep_eq_dispatch st i rest j js hrc havail]
      have hjm_avail : pythonMin (fun k => (getP st.ps k).burst_time) j js ∈
          sjfAvailable st.ps st.remaining st.t := by
        rw [havail]
        exact pythonMin_mem _ j js
      obtain ⟨hjm, harr⟩ := sjf_avail_mem hjm_avail
      exact sjfDispatch_inv ps0 hv st _ hspecs hremlt hremnd hchain hmerged
        (by rcases hlast with h | h
            · exact Or.inl h
            · exact Or.inr (Or.inr h))
        hsum hgood hjm harr
    | nil =>
      obtain ⟨j, js, havail1⟩ := sjf_avail_nonempty_after_advance st.ps i rest
      have havail1' : sjfAvailable st.ps st.remaining
          (sjfNextArrival st.ps i rest) = j :: js := by
        rw [hrc]
        exact havail1
      rw [sjfStep_eq_idle st i rest j js hrc havail havail1']
      have hgt : st.t < sjfNextArrival st.ps i rest := by
        obtain ⟨k, hk, hke⟩ := sjfNextArrival_mem st.ps i rest
        have hnk : ¬((getP st.ps k).arrival_time ≤ st.t) :=
          sjf_avail_empty havail k (by rw [hrc]; exact hk)
        omega
      have hjmf := sjf_avail_mem (show pythonMin (fun k => (getP st.ps k).burst_time) j js ∈
          sjfAvailable st.ps st.remaining (sjfNextArrival st.ps i rest) from by
        rw [havail1']
        exact pythonMin_mem _ j js)
      refine sjfDispatch_inv ps0 hv (sjfAdvance st i rest)
        (pythonMin (fun k => (getP st.ps k).burst_time) j js)
        hspecs hremlt hremnd ?_ ?_ ?_ ?_ hgood hjmf.1 hjmf.2
      · show chainTo 0 (st.tl ++ [(Label.IDLE, st.t, sjfNextArrival st.ps i rest)])
          (sjfNextArrival st.ps i rest)
        exact chainTo_append _ hchain hgt
      · show mergedB (st.tl ++ [(Label.IDLE, st.t, sjfNextArrival st.ps i rest)]) = true
        apply mergedB_append _ _ _ _ hmerged
        rcases hlast with h | ⟨k, hk, hknot, h⟩ <;> rw [h] <;> simp
      · refine Or.inr (Or.inl ?_)
        show lastLabel (st.tl ++ [(Label.IDLE, st.t, sjfNextArrival st.ps i rest)]) =
          some Label.IDLE
        rw [lastLabel_append]
      · show nonIdleLen (st.tl ++ [(Label.IDLE, st.t, sjfNextArrival st.ps i rest)]) +
          sumBurstOf st.ps st.remaining = totalBurst ps0
        rw [nonIdleLen_append, nonIdleLen_idle]
        omega

/-! ## Final-state extraction for FIFO and SJF -/

theorem totalBurst_nonneg (ps : List Process) (h : ∀ p ∈ ps, 0 < p.burst_time) :
    0 ≤ totalBurst ps := by
  induction ps with
  | nil => exact le_refl _
  | cons q l ih =>
    show 0 ≤ q.burst_time + totalBurst l
    have h1 := h q (List.mem_cons_self q l)
    have h2 := ih (fun p hp => h p (List.mem_cons_of_mem q hp))
    omega

theorem totalBurst_pos (ps : List Process) (h : ∀ p ∈ ps, 0 < p.burst_time)
    (hne : ps ≠ []) : 0 < totalBurst ps := by
  cases ps with
  | nil => exact absurd rfl hne
  | cons q l =>
    show 0 < q.burst_time + totalBurst l
    have h1 := h q (List.mem_cons_self q l)
    have h2 := totalBurst_nonneg l (fun p hp => h p (List.mem_cons_of_mem q hp))
    omega

theorem spec_filter (ps : List Process) (a : Int) :
    (ps.filter (fun p => decide (p.arrival_time = a))).map Process.spec =
      (specsOf ps).filter (fun x => decide (x.2.1 = a)) := by
  unfold specsOf
  rw [List.filter_map]
  rfl

theorem filter_spec_of_specsOf {ps qs : List Process}
    (h : specsOf ps = specsOf qs) (a : Int) :
    (ps.filter (fun p => decide (p.arrival_time = a))).map Process.spec =
      (qs.filter (fun p => decide (p.arrival_time = a))).map Process.spec := by
  rw [spec_filter, spec_filter, h]

theorem map_arrival_of_specsOf {ps qs : List Process}
    (h : specsOf ps = specsOf qs) :
    ps.map Process.arrival_time = qs.map Process.arrival_time := by
  have h1 : ps.map Process.arrival_time = ((specsOf ps).map (fun x => x.2.1)) := by
    simp only [specsOf, List.map_map]
    exact (List.map_congr_left (fun p _ => rfl)).symm
  have h2 : qs.map Process.arrival_time = ((specsOf qs).map (fun x => x.2.1)) := by
    simp only [specsOf, List.map_map]
    exact (List.map_congr_left (fun p _ => rfl)).symm
  rw [h1, h, ← h2]

theorem pairwise_arrival_transfer : ∀ {ps qs : List Process},
    ps.map Process.arrival_time = qs.map Process.arrival_time →
    qs.Pairwise arrivalLE → ps.Pairwise arrivalLE
  | [], _, _, _ => List.Pairwise.nil
  | _ :: _, [], h, _ => absurd h (by simp)
  | p :: ps, q :: qs, h, hq => by
    simp only [List.map_cons, List.cons.injEq] at h
    rw [List.pairwise_cons] at hq ⊢
    refine ⟨?_, pairwise_arrival_transfer h.2 hq.2⟩
    intro b hb
    have hmem : b.arrival_time ∈ ps.map Process.arrival_time :=
      List.mem_map_of_mem _ hb
    rw [h.2] at hmem
    obtain ⟨c, hc, hce⟩ := List.mem_map.mp hmem
    show p.arrival_time ≤ b.arrival_time
    rw [h.1, ← hce]
    exact hq.1 c hc

theorem pairwise_arrivalLE_of_specsOf {ps qs : List Process}
    (h : specsOf ps = specsOf qs) (hq : qs.Pairwise arrivalLE) :
    ps.Pairwise arrivalLE :=
  pairwise_arrival_transfer (map_arrival_of_specsOf h) hq

theorem nonIdleLen_pos_ne_nil {tl : List TimelineEntry} (h : 0 < nonIdleLen tl) :
    tl ≠ [] := by
  intro hnil
  rw [hnil] at h
  exact absurd h (by simp [nonIdleLen])

theorem fifo_final (s : SchedulerSimulator) (out : SchedulerSimulator × Option SimResult)
    (hv : ValidInput s.original_processes) (hrun : fifo_schedule s = some out) :
    (∀ p ∈ out.1.processes,
      0 ≤ p.waiting_time ∧ 0 ≤ p.response_time ∧ p.response_time ≤ p.waiting_time ∧
      p.burst_time ≤ p.turnaround_time ∧
      p.turnaround_time = p.completion_time - p.arrival_time ∧
      p.waiting_time = p.turnaround_time - p.burst_time ∧
      p.response_time = p.first_run - p.arrival_time) ∧
    nonIdleLen out.1.timeline = totalBurst s.original_processes ∧
    timelineChainB 0 out.1.timeline = true ∧
    mergedB out.1.timeline = true ∧
    (s.original_processes ≠ [] → out.1.timeline ≠ []) ∧
    out.1.processes.Pairwise arrivalLE ∧
    (∀ a : Int,
      (out.1.processes.filter (fun p => decide (p.arrival_time = a))).map Process.spec =
      (s.original_processes.filter (fun p => decide (p.arrival_time = a))).map Process.spec) := by
  rw [fifo_schedule_eq] at hrun
  have hout := (Option.some.inj hrun).symm
  have hv0 : ValidInput (reset_processes s).processes :=
    validInput_of_specsOf (specsOf_reset s) hv
  have hperm : (sortByArrival (reset_processes s).processes).Perm
      (reset_processes s).processes := sortByArrival_perm _
  have hvs : ValidInput (sortByArrival (reset_processes s).processes) := by
    obtain ⟨hb, ha, hnd⟩ := hv0
    refine ⟨fun p hp => hb p (hperm.mem_iff.mp hp),
      fun p hp => ha p (hperm.mem_iff.mp hp), ?_⟩
    exact ((List.Perm.map Process.pid hperm).nodup_iff).mpr hnd
  have hfold := fifo_fold_done (sortByArrival (reset_processes s).processes) [] [] 0
  rw [List.nil_append] at hfold
  have hprocs : out.1.processes = calculate_metrics
      (fifoRun 0 (sortByArrival (reset_processes s).processes)) := by
    rw [hout]
    show calculate_metrics
      ((sortByArrival (reset_processes s).processes).foldl fifoStep ([], [], 0)).1 = _
    rw [hfold]
  have htl : out.1.timeline =
      ((sortByArrival (reset_processes s).processes).foldl fifoStep ([], [], 0)).2.1 := by
    rw [hout]
  have hburst : totalBurst (sortByArrival (reset_processes s).processes) =
      totalBurst s.original_processes := by
    rw [totalBurst_perm hperm, totalBurst_eq_of_specsOf (specsOf_reset s)]
  have hchainm := fifo_fold_chain (sortByArrival (reset_processes s).processes) [] [] 0
    hvs.1 (by rw [List.nil_append]; exact hvs.2.2) rfl rfl (Or.inl rfl)
  refine ⟨?_, ?_, ?_, ?_, ?_, ?_, ?_⟩
  · rw [hprocs]
    exact calculate_metrics_good _ (fifoRun_good _ 0)
  · rw [htl, fifo_fold_nonIdle]
    show nonIdleLen ([] : List TimelineEntry) + _ = _
    rw [show nonIdleLen ([] : List TimelineEntry) = 0 from rfl, hburst]
    ring
  · rw [htl]
    exact timelineChainB_of_chainTo _ _ _ hchainm.1
  · rw [htl]
    exact hchainm.2
  · intro hne
    rw [htl]
    apply nonIdleLen_pos_ne_nil
    rw [fifo_fold_nonIdle, show nonIdleLen ([] : List TimelineEntry) = 0 from rfl, hburst]
    have : 0 < totalBurst s.original_processes := totalBurst_pos _ hv.1 hne
    omega
  · rw [hprocs]
    exact pairwise_arrivalLE_of_specsOf
      (show specsOf (calculate_metrics
          (fifoRun 0 (sortByArrival (reset_processes s).processes))) =
        specsOf (sortByArrival (reset_processes s).processes) from by
          rw [specsOf_calculate_metrics, fifoRun_specs])
      (sortByArrival_sorted _)
  · intro a
    rw [hprocs]
    have h1 : specsOf (calculate_metrics
        (fifoRun 0 (sortByArrival (reset_processes s).processes))) =
        specsOf (sortByArrival (reset_processes s).processes) := by
      rw [specsOf_calculate_metrics, fifoRun_specs]
    rw [filter_spec_of_specsOf h1 a,
      filter_sortByArrival a ((reset_processes s).processes)]
    exact filter_spec_of_specsOf (specsOf_reset s) a

theorem sjfInv_init (ps0 : List Process) :
    SjfInv ps0 ⟨ps0, List.range ps0.length, [], 0, []⟩ := by
  refine ⟨rfl, ?_, List.nodup_range _, rfl, rfl, Or.inl rfl, ?_, ?_⟩
  · intro i hi
    exact List.mem_range.mp hi
  · show nonIdleLen [] + sumBurstOf ps0 (List.range ps0.length) = totalBurst ps0
    rw [show nonIdleLen [] = 0 from rfl, ← totalBurst_eq_sumBurstOf_range]
    ring
  · intro i hi hnot
    exact absurd (List.mem_range.mpr hi) hnot

theorem sjf_final (s : SchedulerSimulator) (out : SchedulerSimulator × Option SimResult)
    (hv : ValidInput s.original_processes) (hrun : sjf_schedule s = some out) :
    specsOf out.1.processes = specsOf s.original_processes ∧
    (∀ p ∈ out.1.processes,
      0 ≤ p.waiting_time ∧ 0 ≤ p.response_time ∧ p.response_time ≤ p.waiting_time ∧
      p.burst_time ≤ p.turnaround_time ∧
      p.turnaround_time = p.completion_time - p.arrival_time ∧
      p.waiting_time = p.turnaround_time - p.burst_time ∧
      p.response_time = p.first_run - p.arrival_time) ∧
    nonIdleLen out.1.timeline = totalBurst s.original_processes ∧
    timelineChainB 0 out.1.timeline = true ∧
    mergedB out.1.timeline = true ∧
    (s.original_processes ≠ [] → out.1.timeline ≠ []) := by
  obtain ⟨st, hw, hout⟩ := sjf_schedule_elim s out hrun
  have hv0 : ValidInput (reset_processes s).processes :=
    validInput_of_specsOf (specsOf_reset s) hv
  obtain ⟨hinv, hcond⟩ := whileLoop_invariant
    (SjfInv (reset_processes s).processes)
    (sjfStep_inv _ hv0) _ _ _ (sjfInv_init (reset_processes s).processes) hw
  obtain ⟨hspecs, hremlt, hremnd, hchain, hmerged, hlast, hsum, hgood⟩ := hinv
  have hremnil : st.remaining = [] := by
    rw [sjfCond] at hcond
    simp only [Bool.not_eq_false'] at hcond
    exact List.isEmpty_iff.mp hcond
  have hprocs : out.1.processes = calculate_metrics st.ps := by rw [hout]
  have htl : out.1.timeline = st.tl := by rw [hout]
  have hspecs2 : specsOf st.ps = specsOf s.original_processes := by
    rw [hspecs, specsOf_reset]
  have hgood2 : ∀ p ∈ st.ps, GoodP p := by
    intro p hp
    obtain ⟨i, hi, rfl⟩ := mem_getP st.ps p hp
    exact hgood i hi (by rw [hremnil]; simp)
  refine ⟨?_, ?_, ?_, ?_, ?_, ?_⟩
  · rw [hprocs, specsOf_calculate_metrics]
    exact hspecs2
  · rw [hprocs]
    exact calculate_metrics_good _ hgood2
  · rw [htl]
    have hz : sumBurstOf st.ps st.remaining = 0 := by
      rw [hremnil]
      rfl
    have ht : totalBurst st.ps = totalBurst (reset_processes s).processes :=
      totalBurst_eq_of_specsOf hspecs
    rw [← totalBurst_eq_of_specsOf hspecs2]
    omega
  · rw [htl]
    exact timelineChainB_of_chainTo _ _ _ hchain
  · rw [htl]
    exact hmerged
  · intro hne
    rw [htl]
    apply nonIdleLen_pos_ne_nil
    have hz : sumBurstOf st.ps st.remaining = 0 := by
      rw [hremnil]
      rfl
    have hpos : 0 < totalBurst (reset_processes s).processes := by
      apply totalBurst_pos _ hv0.1
      intro hnil
      apply hne
      have := congrArg List.length (congrArg SchedulerSimulator.processes (rfl :
        reset_processes s = reset_processes s))
      have hlen : (reset_processes s).processes.length = s.original_processes.length := by
        show (s.original_processes.map _).length = _
        rw [List.length_map]
      rw [hnil] at hlen
      exact List.eq_nil_of_length_eq_zero hlen.symm
    omega

/-! ## STCF: step analysis and loop invariant -/

theorem stcfExecP_remaining (t : Int) (p : Process) :
    (stcfExecP t p).remaining_time = p.remaining_time - 1 := by
  rw [stcfExecP_eq]

theorem stcfExecP_burst (t : Int) (p : Process) :
    (stcfExecP t p).burst_time = p.burst_time := by
  rw [stcfExecP_eq]

theorem stcfExecP_arrival (t : Int) (p : Process) :
    (stcfExecP t p).arrival_time = p.arrival_time := by
  rw [stcfExecP_eq]

theorem stcfExecP_first_run (t : Int) (p : Process) :
    (stcfExecP t p).first_run = if p.first_run = -1 then t else p.first_run := by
  rw [stcfExecP_eq]

theorem stcfExecP_response (t : Int) (p : Process) :
    (stcfExecP t p).response_time =
      if p.first_run = -1 then t - p.arrival_time else p.response_time := by
  rw [stcfExecP_eq]

theorem stcfExecP_completion (t : Int) (p : Process) :
    (stcfExecP t p).completion_time =
      if p.remaining_time - 1 = 0 then t + 1 else p.completion_time := by
  rw [stcfExecP_eq]

theorem stcf_avail_mem {ps : List Process} {t : Int} {j : Nat}
    (h : j ∈ stcfAvailable ps t) :
    j < ps.length ∧ (getP ps j).arrival_time ≤ t ∧ 0 < (getP ps j).remaining_time := by
  unfold stcfAvailable at h
  have h2 := List.mem_filter.mp h
  exact ⟨List.mem_range.mp h2.1, (of_decide_eq_true h2.2).1, (of_decide_eq_true h2.2).2⟩

theorem stcfStep_eq_idle (st : StcfState)
    (h : stcfAvailable st.ps st.t = []) :
    stcfStep st = { st with t := st.t + 1 } := by
  obtain ⟨ps, comp, t, tl⟩ := st
  simp only at h ⊢
  simp only [stcfStep]
  rw [h]

theorem stcfStep_eq_exec (st : StcfState) (j : Nat) (js : List Nat)
    (h : stcfAvailable st.ps st.t = j :: js) :
    stcfStep st =
      { ps := st.ps.set (pythonMin (fun k => (getP st.ps k).remaining_time) j js)
          (stcfExecP st.t
            (getP st.ps (pythonMin (fun k => (getP st.ps k).remaining_time) j js)))
        completed := if (getP st.ps
              (pythonMin (fun k => (getP st.ps k).remaining_time) j js)).remaining_time - 1 = 0
          then st.completed ++ [pythonMin (fun k => (getP st.ps k).remaining_time) j js]
          else st.completed
        t := st.t + 1
        tl := timelineAdd st.tl
          (Label.P (getP st.ps
            (pythonMin (fun k => (getP st.ps k).remaining_time) j js)).pid)
          st.t (st.t + 1) } := by
  obtain ⟨ps, comp, t, tl⟩ := st
  simp only at h ⊢
  simp only [stcfStep]
  rw [h]

/-- Reset state of every working process produced by `reset_processes`. -/
theorem reset_shape (s : SchedulerSimulator) :
    ∀ p ∈ (reset_processes s).processes,
      p.remaining_time = p.burst_time ∧ p.first_run = -1 ∧
      p.response_time = 0 ∧ p.completion_time = 0 := by
  intro p hp
  obtain ⟨q, -, rfl⟩ := List.mem_map.mp hp
  exact ⟨rfl, rfl, rfl, rfl⟩

theorem sumRemaining_reset (s : SchedulerSimulator) :
    sumRemaining (reset_processes s).processes =
      totalBurst (reset_processes s).processes := by
  unfold sumRemaining totalBurst reset_processes
  simp only [List.map_map]
  rfl

/-- The loop invariant of `stcf_schedule`, relative to the reset process
list `ps0`: spec fields never change, `completed` holds distinct valid
indices, the logged non-idle time plus the remaining work accounts for all
bursts, and every process is either untouched (first run pending) or
carries consistent first-run/response/progress/completion data. -/
def StcfInv (ps0 : List Process) (st : StcfState) : Prop :=
  specsOf st.ps = specsOf ps0 ∧
  st.completed.Nodup ∧
  (∀ i ∈ st.completed, i < st.ps.length) ∧
  0 ≤ st.t ∧
  nonIdleLen st.tl + sumRemaining st.ps = totalBurst ps0 ∧
  (∀ i, i < st.ps.length →
    ((getP st.ps i).remaining_time = 0 ↔ i ∈ st.completed) ∧
    0 ≤ (getP st.ps i).remaining_time ∧
    (getP st.ps i).remaining_time ≤ (getP st.ps i).burst_time ∧
    (((getP st.ps i).first_run = -1 ∧
        (getP st.ps i).remaining_time = (getP st.ps i).burst_time ∧
        (getP st.ps i).response_time = 0 ∧ (getP st.ps i).completion_time = 0) ∨
      (0 ≤ (getP st.ps i).first_run ∧
        (getP st.ps i).arrival_time ≤ (getP st.ps i).first_run ∧
        (getP st.ps i).response_time =
          (getP st.ps i).first_run - (getP st.ps i).arrival_time ∧
        (getP st.ps i).first_run +
          ((getP st.ps i).burst_time - (getP st.ps i).remaining_time) ≤ st.t ∧
        ((getP st.ps i).remaining_time = 0 →
          (getP st.ps i).first_run + (getP st.ps i).burst_time ≤
            (getP st.ps i).completion_time))))

theorem stcfInv_init (s : SchedulerSimulator)
    (hv : ValidInput s.original_processes) :
    StcfInv (reset_processes s).processes
      ⟨(reset_processes s).processes, [], 0, []⟩ := by
  have hv0 : ValidInput (reset_processes s).processes :=
    validInput_of_specsOf (specsOf_reset s) hv
  refine ⟨rfl, List.nodup_nil, ?_, le_refl _, ?_, ?_⟩
  · intro i hi
    cases hi
  · show nonIdleLen [] + sumRemaining (reset_processes s).processes =
      totalBurst (reset_processes s).processes
    rw [show nonIdleLen [] = 0 from rfl, sumRemaining_reset]
    ring
  · intro i hi
    dsimp only at hi ⊢
    have hshape := reset_shape s (getP (reset_processes s).processes i)
      (getP_mem _ i hi)
    have hbpos : 0 < (getP (reset_processes s).processes i).burst_time :=
      hv0.1 _ (getP_mem _ i hi)
    obtain ⟨hrem, hfr, hresp, hcomp⟩ := hshape
    refine ⟨?_, by omega, by omega, Or.inl ⟨hfr, hrem, hresp, hcomp⟩⟩
    constructor
    · intro h0
      omega
    · intro hmem
      cases hmem

theorem stcfStep_inv (ps0 : List Process) (_hv : ValidInput ps0) :
    ∀ st, StcfInv ps0 st → stcfCond st = true → StcfInv ps0 (stcfStep st) := by
  intro st hinv hcond
  obtain ⟨hspecs, hnd, hcomplt, ht0, hsum, hper⟩ := hinv
  cases havail : stcfAvailable st.ps st.t with
  | nil =>
    rw [stcfStep_eq_idle st havail]
    refine ⟨hspecs, hnd, hcomplt, by dsimp only; omega, hsum, ?_⟩
    intro i hi
    dsimp only at hi ⊢
    obtain ⟨hiff, h0, hle, hdisj⟩ := hper i hi
    refine ⟨hiff, h0, hle, ?_⟩
    rcases hdisj with h | ⟨h0fr, h1, h2, h3, h4⟩
    · exact Or.inl h
    · exact Or.inr ⟨h0fr, h1, h2, by omega, h4⟩
  | cons j js =>
    obtain ⟨jm, hjmdef⟩ : ∃ m, pythonMin (fun k => (getP st.ps k).remaining_time) j js = m :=
      ⟨_, rfl⟩
    rw [stcfStep_eq_exec st j js havail, hjmdef]
    have hjm_mem : jm ∈ stcfAvailable st.ps st.t := by
      rw [havail, ← hjmdef]
      exact pythonMin_mem _ j js
    obtain ⟨hjmlt, harr, hrempos⟩ := stcf_avail_mem hjm_mem
    have hjmnotc : jm ∉ st.completed := by
      intro h
      have := (hper jm hjmlt).1.mpr h
      omega
    refine ⟨?_, ?_, ?_, ?_, ?_, ?_⟩
    · dsimp only
      rw [specsOf_set _ _ _ (stcfExecP_spec st.t (getP st.ps jm))]
      exact hspecs
    · dsimp only
      by_cases hdone : (getP st.ps jm).remaining_time - 1 = 0
      · rw [if_pos hdone]
        refine List.Nodup.append hnd (List.nodup_singleton jm) ?_
        intro a ha hb
        rw [List.mem_singleton] at hb
        subst hb
        exact hjmnotc ha
      · rw [if_neg hdone]
        exact hnd
    · dsimp only
      intro i hi
      rw [List.length_set]
      by_cases hdone : (getP st.ps jm).remaining_time - 1 = 0
      · rw [if_pos hdone] at hi
        rcases List.mem_append.mp hi with h | h
        · exact hcomplt i h
        · rw [List.mem_singleton] at h
          subst h
          exact hjmlt
      · rw [if_neg hdone] at hi
        exact hcomplt i hi
    · dsimp only
      omega
    · dsimp only
      rw [nonIdleLen_timelineAdd, sumRemaining_set _ _ _ hjmlt, stcfExecP_remaining]
      omega
    · dsimp only
      intro i hi
      rw [List.length_set] at hi
      obtain ⟨hiff, h0, hle, hdisj⟩ := hper i hi
      by_cases hij : i = jm
      · subst hij
        rw [getP_set_self _ _ _ hjmlt]
        refine ⟨?_, ?_, ?_, ?_⟩
        · rw [stcfExecP_remaining]
          by_cases hdone : (getP st.ps i).remaining_time - 1 = 0
          · rw [if_pos hdone]
            constructor
            · intro _
              exact List.mem_append_right _ (List.mem_singleton_self i)
            · intro _
              exact hdone
          · rw [if_neg hdone]
            constructor
            · intro h
              exact absurd h hdone
            · intro h
              exfalso
              have := hiff.mpr h
              omega
        · rw [stcfExecP_remaining]
          omega
        · rw [stcfExecP_remaining, stcfExecP_burst]
          omega
        · by_cases hfr : (getP st.ps i).first_run = -1
          · rcases hdisj with ⟨-, hrb, -, -⟩ | ⟨h0fr, -, -, -, -⟩
            · refine Or.inr ⟨?_, ?_, ?_, ?_, ?_⟩
              · rw [stcfExecP_first_run, if_pos hfr]
                exact ht0
              · rw [stcfExecP_first_run, if_pos hfr, stcfExecP_arrival]
                exact harr
              · rw [stcfExecP_response, if_pos hfr, stcfExecP_first_run, if_pos hfr,
                  stcfExecP_arrival]
              · rw [stcfExecP_first_run, if_pos hfr, stcfExecP_burst, stcfExecP_remaining]
                omega
              · rw [stcfExecP_remaining, stcfExecP_completion, stcfExecP_first_run,
                  if_pos hfr, stcfExecP_burst]
                intro hdone
                rw [if_pos hdone]
                omega
            · exfalso
              rw [hfr] at h0fr
              omega
          · rcases hdisj with ⟨hfr2, -, -, -⟩ | ⟨h0fr, h1, h2, h3, h4⟩
            · exact absurd hfr2 hfr
            · refine Or.inr ⟨?_, ?_, ?_, ?_, ?_⟩
              · rw [stcfExecP_first_run, if_neg hfr]
                exact h0fr
              · rw [stcfExecP_first_run, if_neg hfr, stcfExecP_arrival]
                exact h1
              · rw [stcfExecP_response, if_neg hfr, stcfExecP_first_run, if_neg hfr,
                  stcfExecP_arrival]
                exact h2
              · rw [stcfExecP_first_run, if_neg hfr, stcfExecP_burst, stcfExecP_remaining]
                omega
              · rw [stcfExecP_remaining, stcfExecP_completion, stcfExecP_first_run,
                  if_neg hfr, stcfExecP_burst]
                intro hdone
                rw [if_pos hdone]
                omega
      · rw [getP_set_ne _ _ _ _ hij]
        refine ⟨?_, h0, hle, ?_⟩
        · by_cases hdone : (getP st.ps jm).remaining_time - 1 = 0
          · rw [if_pos hdone]
            constructor
            · intro h
              exact List.mem_append_left _ (hiff.mp h)
            · intro h
              rcases List.mem_append.mp h with h | h
              · exact hiff.mpr h
              · rw [List.mem_singleton] at h
                exact absurd h hij
          · rw [if_neg hdone]
            exact hiff
        · rcases hdisj with h | ⟨h0fr, h1, h2, h3, h4⟩
          · exact Or.inl h
          · exact Or.inr ⟨h0fr, h1, h2, by omega, h4⟩

theorem stcf_final (s : SchedulerSimulator) (out : SchedulerSimulator × Option SimResult)
    (hv : ValidInput s.original_processes) (hrun : stcf_schedule s = some out) :
    specsOf out.1.processes = specsOf s.original_processes ∧
    (∀ p ∈ out.1.processes,
      0 ≤ p.waiting_time ∧ 0 ≤ p.response_time ∧ p.response_time ≤ p.waiting_time ∧
      p.burst_time ≤ p.turnaround_time ∧
      p.turnaround_time = p.completion_time - p.arrival_time ∧
      p.waiting_time = p.turnaround_time - p.burst_time ∧
      p.response_time = p.first_run - p.arrival_time) ∧
    nonIdleLen out.1.timeline = totalBurst s.original_processes := by
  obtain ⟨st, hw, hout⟩ := stcf_schedule_elim s out hrun
  have hv0 : ValidInput (reset_processes s).processes :=
    validInput_of_specsOf (specsOf_reset s) hv
  obtain ⟨hinv, hcond⟩ := whileLoop_invariant
    (StcfInv (reset_processes s).processes)
    (stcfStep_inv _ hv0) _ _ _ (stcfInv_init s hv) hw
  obtain ⟨hspecs, hnd, hcomplt, ht0, hsum, hper⟩ := hinv
  have hnotlt : ¬ (st.completed.length < st.ps.length) := by
    rw [stcfCond] at hcond
    exact of_decide_eq_false hcond
  have hall : ∀ i < st.ps.length, i ∈ st.completed :=
    mem_of_nodup_length_ge hnd hcomplt (by omega)
  have hrem0 : ∀ p ∈ st.ps, p.remaining_time = 0 := by
    intro p hp
    obtain ⟨i, hi, rfl⟩ := mem_getP st.ps p hp
    exact (hper i hi).1.mpr (hall i hi)
  have hz : sumRemaining st.ps = 0 := sumRemaining_eq_zero st.ps hrem0
  have hspecs2 : specsOf st.ps = specsOf s.original_processes := by
    rw [hspecs, specsOf_reset]
  have hgood : ∀ p ∈ st.ps, GoodP p := by
    intro p hp
    obtain ⟨i, hi, rfl⟩ := mem_getP st.ps p hp
    obtain ⟨hiff, h0, hle, hdisj⟩ := hper i hi
    have hr0 : (getP st.ps i).remaining_time = 0 := hiff.mpr (hall i hi)
    have hbpos : 0 < (getP st.ps i).burst_time := burst_pos_of_valid hspecs hv0 hi
    rcases hdisj with ⟨-, hrb, -, -⟩ | ⟨-, h1, h2, h3, h4⟩
    · exfalso
      omega
    · exact ⟨h1, h4 hr0, h2⟩
  refine ⟨?_, ?_, ?_⟩
  · rw [hout]
    show specsOf (calculate_metrics st.ps) = _
    rw [specsOf_calculate_metrics]
    exact hspecs2
  · rw [hout]
    exact calculate_metrics_good _ hgood
  · rw [hout]
    show nonIdleLen st.tl = _
    rw [← totalBurst_eq_of_specsOf hspecs2]
    have ht : totalBurst st.ps = totalBurst (reset_processes s).processes :=
      totalBurst_eq_of_specsOf hspecs
    omega

/-! ## RR: admission-scan facts and loop invariant -/

theorem setAdd_mem_self (s : List Int) (x : Int) : x ∈ setAdd s x := by
  unfold setAdd
  by_cases h : s.contains x = true
  · rw [if_pos h]
    exact (contains_true_iff s x).mp h
  · rw [if_neg h]
    exact List.mem_append_right _ (List.mem_singleton_self x)

theorem setAdd_mem_of_mem (s : List Int) (x y : Int) (h : y ∈ s) : y ∈ setAdd s x := by
  unfold setAdd
  by_cases hc : s.contains x = true
  · rw [if_pos hc]
    exact h
  · rw [if_neg hc]
    exact List.mem_append_left _ h

/-- Soundness of one admission scan: starting from a duplicate-free queue
whose members are arrived, unfinished and pid-registered, the scan returns a
queue of the same shape (and never admits the excluded process again). -/
theorem rrAdmit_facts (ps : List Process) (t : Int) (excl : Option Nat)
    (queue : List Nat) (inq : List Int)
    (hnd : (ps.map Process.pid).Nodup)
    (hqn : queue.Nodup)
    (hqf : ∀ i ∈ queue, i < ps.length ∧ (getP ps i).arrival_time ≤ t ∧
      0 < (getP ps i).remaining_time ∧ (getP ps i).pid ∈ inq) :
    (rrAdmit ps t excl queue inq).1.Nodup ∧
    (∀ i ∈ (rrAdmit ps t excl queue inq).1, i < ps.length ∧
      (getP ps i).arrival_time ≤ t ∧ 0 < (getP ps i).remaining_time ∧
      (getP ps i).pid ∈ (rrAdmit ps t excl queue inq).2) ∧
    (∀ k, excl = some k → k ∉ queue → k ∉ (rrAdmit ps t excl queue inq).1) := by
  rw [rrAdmit_eq ps t excl queue inq hnd]
  refine ⟨?_, ?_, ?_⟩
  · refine List.Nodup.append hqn (List.Nodup.filter _ (List.nodup_range _)) ?_
    intro i hiq hif
    have he := of_decide_eq_true (List.mem_filter.mp hif).2
    exact he.2.1 ((contains_true_iff _ _).mpr (hqf i hiq).2.2.2)
  · intro i hi
    rcases List.mem_append.mp hi with h | h
    · obtain ⟨h1, h2, h3, h4⟩ := hqf i h
      exact ⟨h1, h2, h3, List.mem_append_left _ h4⟩
    · have hrange := (List.mem_filter.mp h).1
      have he := of_decide_eq_true (List.mem_filter.mp h).2
      refine ⟨List.mem_range.mp hrange, he.1, he.2.2.1, ?_⟩
      exact List.mem_append_right _ (List.mem_map.mpr ⟨i, h, rfl⟩)
  · intro k hk hknq hkin
    rcases List.mem_append.mp hkin with h | h
    · exact hknq h
    · have he := of_decide_eq_true (List.mem_filter.mp h).2
      rw [hk] at he
      exact he.2.2.2 rfl

theorem rrInit_fold (ps : List Process) : ∀ (is : List Nat) (q : List Nat) (inq : List Int),
    is.Nodup → (∀ i ∈ is, i ∉ q) → (∀ i ∈ is, i < ps.length) →
    q.Nodup →
    (∀ i ∈ q, i < ps.length ∧ (getP ps i).arrival_time ≤ 0 ∧ (getP ps i).pid ∈ inq) →
    (is.foldl
      (fun acc i =>
        if (getP ps i).arrival_time ≤ 0
        then (acc.1 ++ [i], setAdd acc.2 (getP ps i).pid)
        else acc) (q, inq)).1.Nodup ∧
    ∀ i ∈ (is.foldl
      (fun acc i =>
        if (getP ps i).arrival_time ≤ 0
        then (acc.1 ++ [i], setAdd acc.2 (getP ps i).pid)
        else acc) (q, inq)).1,
      i < ps.length ∧ (getP ps i).arrival_time ≤ 0 ∧
        (getP ps i).pid ∈ (is.foldl
          (fun acc i =>
            if (getP ps i).arrival_time ≤ 0
            then (acc.1 ++ [i], setAdd acc.2 (getP ps i).pid)
            else acc) (q, inq)).2 := by
  intro is
  induction is with
  | nil =>
    intro q inq _ _ _ hqn hqf
    exact ⟨hqn, hqf⟩
  | cons i is ih =>
    intro q inq hisnd hfresh hislt hqn hqf
    rw [List.nodup_cons] at hisnd
    rw [List.foldl_cons]
    by_cases hc : (getP ps i).arrival_time ≤ 0
    · rw [if_pos hc]
      refine ih (q ++ [i]) (setAdd inq (getP ps i).pid) hisnd.2 ?_ ?_ ?_ ?_
      · intro k hk hkin
        rcases List.mem_append.mp hkin with h | h
        · exact hfresh k (List.mem_cons_of_mem i hk) h
        · rw [List.mem_singleton] at h
          subst h
          exact hisnd.1 hk
      · intro k hk
        exact hislt k (List.mem_cons_of_mem i hk)
      · refine List.Nodup.append hqn (List.nodup_singleton i) ?_
        intro a ha hb
        rw [List.mem_singleton] at hb
        subst hb
        exact hfresh a (List.mem_cons_self a is) ha
      · intro k hk
        rcases List.mem_append.mp hk with h | h
        · obtain ⟨h1, h2, h3⟩ := hqf k h
          exact ⟨h1, h2, setAdd_mem_of_mem _ _ _ h3⟩
        · rw [List.mem_singleton] at h
          subst h
          exact ⟨hislt k (List.mem_cons_self k is), hc, setAdd_mem_self _ _⟩
    · rw [if_neg hc]
      exact ih q inq hisnd.2 (fun k hk => hfresh k (List.mem_cons_of_mem i hk))
        (fun k hk => hislt k (List.mem_cons_of_mem i hk)) hqn hqf

theorem rrInit_facts (ps : List Process) :
    (rrInit ps).1.Nodup ∧
    ∀ i ∈ (rrInit ps).1, i < ps.length ∧ (getP ps i).arrival_time ≤ 0 ∧
      (getP ps i).pid ∈ (rrInit ps).2 := by
  unfold rrInit
  have h := rrInit_fold ps (List.range ps.length) [] [] (List.nodup_range _)
    (fun i _ hin => by cases hin) (fun i hi => List.mem_range.mp hi)
    List.nodup_nil (fun i hin => by cases hin)
  exact ⟨h.1, h.2⟩

/-- The loop invariant of `rr_schedule`, relative to the reset process list
`ps0`: spec fields never change, `completed` and `queue` hold distinct
valid indices, queued processes have arrived, still have work and are
pid-registered in `in_queue`, the logged non-idle time plus the remaining
work accounts for all bursts, and every process is either untouched or
carries consistent first-run/response/progress/completion data. -/
def RRInv (ps0 : List Process) (st : RRState) : Prop :=
  specsOf st.ps = specsOf ps0 ∧
  st.completed.Nodup ∧
  (∀ i ∈ st.completed, i < st.ps.length) ∧
  0 ≤ st.t ∧
  nonIdleLen st.tl + sumRemaining st.ps = totalBurst ps0 ∧
  st.queue.Nodup ∧
  (∀ i ∈ st.queue, i < st.ps.length ∧ (getP st.ps i).arrival_time ≤ st.t ∧
    0 < (getP st.ps i).remaining_time ∧ (getP st.ps i).pid ∈ st.in_queue) ∧
  (∀ i, i < st.ps.length →
    ((getP st.ps i).remaining_time = 0 ↔ i ∈ st.completed) ∧
    0 ≤ (getP st.ps i).remaining_time ∧
    (getP st.ps i).remaining_time ≤ (getP st.ps i).burst_time ∧
    (((getP st.ps i).first_run = -1 ∧
        (getP st.ps i).remaining_time = (getP st.ps i).burst_time ∧
        (getP st.ps i).response_time = 0 ∧ (getP st.ps i).completion_time = 0) ∨
      (0 ≤ (getP st.ps i).first_run ∧
        (getP st.ps i).arrival_time ≤ (getP st.ps i).first_run ∧
        (getP st.ps i).response_time =
          (getP st.ps i).first_run - (getP st.ps i).arrival_time ∧
        (getP st.ps i).first_run +
          ((getP st.ps i).burst_time - (getP st.ps i).remaining_time) ≤ st.t ∧
        ((getP st.ps i).remaining_time = 0 →
          (getP st.ps i).first_run + (getP st.ps i).burst_time ≤
            (getP st.ps i).completion_time))))

theorem rrInv_init (s : SchedulerSimulator)
    (hv : ValidInput s.original_processes) :
    RRInv (reset_processes s).processes
      ⟨(reset_processes s).processes, (rrInit (reset_processes s).processes).1,
        (rrInit (reset_processes s).processes).2, [], 0, []⟩ := by
  have hv0 : ValidInput (reset_processes s).processes :=
    validInput_of_specsOf (specsOf_reset s) hv
  obtain ⟨hqn, hqf⟩ := rrInit_facts (reset_processes s).processes
  refine ⟨rfl, List.nodup_nil, ?_, le_refl _, ?_, hqn, ?_, ?_⟩
  · intro i hi
    cases hi
  · show nonIdleLen [] + sumRemaining (reset_processes s).processes =
      totalBurst (reset_processes s).processes
    rw [show nonIdleLen [] = 0 from rfl, sumRemaining_reset]
    ring
  · intro i hi
    dsimp only at hi ⊢
    obtain ⟨h1, h2, h3⟩ := hqf i hi
    obtain ⟨hrem, -, -, -⟩ := reset_shape s (getP (reset_processes s).processes i)
      (getP_mem _ i h1)
    have hbpos : 0 < (getP (reset_processes s).processes i).burst_time :=
      hv0.1 _ (getP_mem _ i h1)
    exact ⟨h1, h2, by omega, h3⟩
  · intro i hi
    dsimp only at hi ⊢
    obtain ⟨hrem, hfr, hresp, hcomp⟩ := reset_shape s
      (getP (reset_processes s).processes i) (getP_mem _ i hi)
    have hbpos : 0 < (getP (reset_processes s).processes i).burst_time :=
      hv0.1 _ (getP_mem _ i hi)
    refine ⟨?_, by omega, by omega, Or.inl ⟨hfr, hrem, hresp, hcomp⟩⟩
    constructor
    · intro h0
      omega
    · intro hmem
      cases hmem

theorem rrExecP_arrival (q t : Int) (p : Process) :
    (rrExecP q t p).arrival_time = p.arrival_time :=
  spec_arrival (rrExecP_spec q t p)

theorem rrExecP_burst (q t : Int) (p : Process) :
    (rrExecP q t p).burst_time = p.burst_time :=
  spec_burst (rrExecP_spec q t p)

theorem rrExecP_pid (q t : Int) (p : Process) :
    (rrExecP q t p).pid = p.pid :=
  spec_pid (rrExecP_spec q t p)

theorem rrStep_inv (ps0 : List Process) (hv : ValidInput ps0) (quantum : Int)
    (hq : 1 ≤ quantum) :
    ∀ st, RRInv ps0 st → rrCond st = true → RRInv ps0 (rrStep quantum st) := by
  intro st hinv hcond
  obtain ⟨hspecs, hnd, hcomplt, ht0, hsum, hqnd, hqf, hper⟩ := hinv
  have hpidnd : (st.ps.map Process.pid).Nodup := pid_nodup_of_valid hspecs hv
  obtain ⟨q1, inq2, hadm⟩ :
      ∃ a b, rrAdmit st.ps st.t none st.queue st.in_queue = (a, b) := ⟨_, _, rfl⟩
  obtain ⟨hq1nd, hq1f, -⟩ :=
    rrAdmit_facts st.ps st.t none st.queue st.in_queue hpidnd hqnd hqf
  rw [hadm] at hq1nd hq1f
  dsimp only at hq1nd hq1f
  rcases q1 with - | ⟨j, rest⟩
  · rw [rrStep_nil quantum st inq2 hadm]
    refine ⟨hspecs, hnd, hcomplt, by dsimp only; omega, hsum, List.nodup_nil, ?_, ?_⟩
    · intro i hi
      cases hi
    · intro i hi
      dsimp only at hi ⊢
      obtain ⟨hiff, h0, hle, hdisj⟩ := hper i hi
      refine ⟨hiff, h0, hle, ?_⟩
      rcases hdisj with h | ⟨h0fr, h1, h2, h3, h4⟩
      · exact Or.inl h
      · exact Or.inr ⟨h0fr, h1, h2, by omega, h4⟩
  · rw [rrStep_cons quantum st j rest inq2 hadm]
    obtain ⟨hjlt, hjarr, hjrem, hjpid⟩ := hq1f j (List.mem_cons_self j rest)
    obtain ⟨hjrest, hrestnd⟩ := List.nodup_cons.mp hq1nd
    have hjnotc : j ∉ st.completed := by
      intro h
      have := (hper j hjlt).1.mpr h
      omega
    have hmin1 : 1 ≤ min quantum (getP st.ps j).remaining_time :=
      le_min hq (by omega)
    have hminle : min quantum (getP st.ps j).remaining_time ≤
        (getP st.ps j).remaining_time := min_le_right _ _
    have hpid1 : (rrExecP quantum st.t (getP st.ps j)).pid = (getP st.ps j).pid :=
      rrExecP_pid _ _ _
    have hpidnd1 : ((st.ps.set j (rrExecP quantum st.t (getP st.ps j))).map
        Process.pid).Nodup := by
      rw [map_pid_set _ _ _ hpid1]
      exact hpidnd
    have hrestf : ∀ i ∈ rest,
        i < (st.ps.set j (rrExecP quantum st.t (getP st.ps j))).length ∧
        (getP (st.ps.set j (rrExecP quantum st.t (getP st.ps j))) i).arrival_time ≤
          st.t + min quantum (getP st.ps j).remaining_time ∧
        0 < (getP (st.ps.set j (rrExecP quantum st.t (getP st.ps j))) i).remaining_time ∧
        (getP (st.ps.set j (rrExecP quantum st.t (getP st.ps j))) i).pid ∈
          inq2.erase (getP st.ps j).pid := by
      intro i hi
      have hij : i ≠ j := by
        intro h
        subst h
        exact hjrest hi
      obtain ⟨h1, h2, h3, h4⟩ := hq1f i (List.mem_cons_of_mem j hi)
      rw [getP_set_ne _ _ _ _ hij, List.length_set]
      have hpidne : (getP st.ps i).pid ≠ (getP st.ps j).pid := by
        intro h
        exact hij (pid_inj_of_nodup hpidnd h1 hjlt h)
      exact ⟨h1, by omega, h3, (List.mem_erase_of_ne hpidne).mpr h4⟩
    obtain ⟨hadm2nd, hadm2f, hadm2excl⟩ := rrAdmit_facts
      (st.ps.set j (rrExecP quantum st.t (getP st.ps j)))
      (st.t + min quantum (getP st.ps j).remaining_time) (some j) rest
      (inq2.erase (getP st.ps j).pid) hpidnd1 hrestnd hrestf
    have hjadm2 : j ∉ (rrAdmit (st.ps.set j (rrExecP quantum st.t (getP st.ps j)))
        (st.t + min quantum (getP st.ps j).remaining_time) (some j) rest
        (inq2.erase (getP st.ps j).pid)).1 := hadm2excl j rfl hjrest
    simp only [rrBusy]
    by_cases hdone : (getP st.ps j).remaining_time -
        min quantum (getP st.ps j).remaining_time = 0
    · rw [if_pos hdone]
      refine ⟨?_, ?_, ?_, ?_, ?_, ?_, ?_, ?_⟩
      · dsimp only
        rw [specsOf_set _ _ _ (rrExecP_spec quantum st.t (getP st.ps j))]
        exact hspecs
      · dsimp only
        refine List.Nodup.append hnd (List.nodup_singleton j) ?_
        intro a ha hb
        rw [List.mem_singleton] at hb
        subst hb
        exact hjnotc ha
      · dsimp only
        intro i hi
        rw [List.length_set]
        rcases List.mem_append.mp hi with h | h
        · exact hcomplt i h
        · rw [List.mem_singleton] at h
          subst h
          exact hjlt
      · dsimp only
        omega
      · dsimp only
        rw [nonIdleLen_append, nonIdleLen_proc, sumRemaining_set _ _ _ hjlt,
          rrExecP_remaining]
        omega
      · dsimp only
        exact hadm2nd
      · dsimp only
        exact hadm2f
      · dsimp only
        intro i hi
        rw [List.length_set] at hi
        obtain ⟨hiff, h0, hle, hdisj⟩ := hper i hi
        by_cases hij : i = j
        · subst hij
          rw [getP_set_self _ _ _ hjlt]
          refine ⟨?_, ?_, ?_, ?_⟩
          · rw [rrExecP_remaining]
            constructor
            · intro _
              exact List.mem_append_right _ (List.mem_singleton_self i)
            · intro _
              exact hdone
          · rw [rrExecP_remaining]
            omega
          · rw [rrExecP_remaining, rrExecP_burst]
            omega
          · by_cases hfr : (getP st.ps i).first_run = -1
            · rcases hdisj with ⟨-, hrb, -, -⟩ | ⟨h0fr, -, -, -, -⟩
              · refine Or.inr ⟨?_, ?_, ?_, ?_, ?_⟩
                · rw [(rrExecP_first_run_new quantum st.t _ hfr).1]
                  exact ht0
                · rw [(rrExecP_first_run_new quantum st.t _ hfr).1, rrExecP_arrival]
                  exact hjarr
                · rw [(rrExecP_first_run_new quantum st.t _ hfr).2,
                    (rrExecP_first_run_new quantum st.t _ hfr).1, rrExecP_arrival]
                · rw [(rrExecP_first_run_new quantum st.t _ hfr).1, rrExecP_burst,
                    rrExecP_remaining]
                  omega
                · rw [rrExecP_remaining]
                  intro hz
                  rw [rrExecP_completion_done quantum st.t _ hdone,
                    (rrExecP_first_run_new quantum st.t _ hfr).1, rrExecP_burst]
                  omega
              · exfalso
                rw [hfr] at h0fr
                omega
            · rcases hdisj with ⟨hfr2, -, -, -⟩ | ⟨h0fr, h1, h2, h3, h4⟩
              · exact absurd hfr2 hfr
              · refine Or.inr ⟨?_, ?_, ?_, ?_, ?_⟩
                · rw [(rrExecP_first_run_old quantum st.t _ hfr).1]
                  exact h0fr
                · rw [(rrExecP_first_run_old quantum st.t _ hfr).1, rrExecP_arrival]
                  exact h1
                · rw [(rrExecP_first_run_old quantum st.t _ hfr).2,
                    (rrExecP_first_run_old quantum st.t _ hfr).1, rrExecP_arrival]
                  exact h2
                · rw [(rrExecP_first_run_old quantum st.t _ hfr).1, rrExecP_burst,
                    rrExecP_remaining]
                  omega
                · rw [rrExecP_remaining]
                  intro hz
                  rw [rrExecP_completion_done quantum st.t _ hdone,
                    (rrExecP_first_run_old quantum st.t _ hfr).1, rrExecP_burst]
                  omega
        · rw [getP_set_ne _ _ _ _ hij]
          refine ⟨?_, h0, hle, ?_⟩
          · constructor
            · intro h
              exact List.mem_append_left _ (hiff.mp h)
            · intro h
              rcases List.mem_append.mp h with h | h
              · exact hiff.mpr h
              · rw [List.mem_singleton] at h
                exact absurd h hij
          · rcases hdisj with h | ⟨h0fr, h1, h2, h3, h4⟩
            · exact Or.inl h
            · exact Or.inr ⟨h0fr, h1, h2, by omega, h4⟩
    · rw [if_neg hdone]
      refine ⟨?_, hnd, ?_, ?_, ?_, ?_, ?_, ?_⟩
      · dsimp only
        rw [specsOf_set _ _ _ (rrExecP_spec quantum st.t (getP st.ps j))]
        exact hspecs
      · dsimp only
        intro i hi
        rw [List.length_set]
        exact hcomplt i hi
      · dsimp only
        omega
      · dsimp only
        rw [nonIdleLen_append, nonIdleLen_proc, sumRemaining_set _ _ _ hjlt,
          rrExecP_remaining]
        omega
      · dsimp only
        refine List.Nodup.append hadm2nd (List.nodup_singleton j) ?_
        intro a ha hb
        rw [List.mem_singleton] at hb
        subst hb
        exact hjadm2 ha
      · dsimp only
        intro i hi
        rcases List.mem_append.mp hi with h | h
        · obtain ⟨h1, h2, h3, h4⟩ := hadm2f i h
          exact ⟨h1, h2, h3, setAdd_mem_of_mem _ _ _ h4⟩
        · rw [List.mem_singleton] at h
          subst h
          rw [getP_set_self _ _ _ hjlt, List.length_set]
          refine ⟨hjlt, ?_, ?_, ?_⟩
          · rw [rrExecP_arrival]
            omega
          · rw [rrExecP_remaining]
            omega
          · rw [rrExecP_pid]
            exact setAdd_mem_self _ _
      · dsimp only
        intro i hi
        rw [List.length_set] at hi
        obtain ⟨hiff, h0, hle, hdisj⟩ := hper i hi
        by_cases hij : i = j
        · subst hij
          rw [getP_set_self _ _ _ hjlt]
          refine ⟨?_, ?_, ?_, ?_⟩
          · rw [rrExecP_remaining]
            constructor
            · intro h
              exact absurd h hdone
            · intro h
              exact absurd h hjnotc
          · rw [rrExecP_remaining]
            omega
          · rw [rrExecP_remaining, rrExecP_burst]
            omega
          · by_cases hfr : (getP st.ps i).first_run = -1
            · rcases hdisj with ⟨-, hrb, -, -⟩ | ⟨h0fr, -, -, -, -⟩
              · refine Or.inr ⟨?_, ?_, ?_, ?_, ?_⟩
                · rw [(rrExecP_first_run_new quantum st.t _ hfr).1]
                  exact ht0
                · rw [(rrExecP_first_run_new quantum st.t _ hfr).1, rrExecP_arrival]
                  exact hjarr
                · rw [(rrExecP_first_run_new quantum st.t _ hfr).2,
                    (rrExecP_first_run_new quantum st.t _ hfr).1, rrExecP_arrival]
                · rw [(rrExecP_first_run_new quantum st.t _ hfr).1, rrExecP_burst,
                    rrExecP_remaining]
                  omega
                · rw [rrExecP_remaining]
                  intro hz
                  exact absurd hz hdone
              · exfalso
                rw [hfr] at h0fr
                omega
            · rcases hdisj with ⟨hfr2, -, -, -⟩ | ⟨h0fr, h1, h2, h3, h4⟩
              · exact absurd hfr2 hfr
              · refine Or.inr ⟨?_, ?_, ?_, ?_, ?_⟩
                · rw [(rrExecP_first_run_old quantum st.t _ hfr).1]
                  exact h0fr
                · rw [(rrExecP_first_run_old quantum st.t _ hfr).1, rrExecP_arrival]
                  exact h1
                · rw [(rrExecP_first_run_old quantum st.t _ hfr).2,
                    (rrExecP_first_run_old quantum st.t _ hfr).1, rrExecP_arrival]
                  exact h2
                · rw [(rrExecP_first_run_old quantum st.t _ hfr).1, rrExecP_burst,
                    rrExecP_remaining]
                  omega
                · rw [rrExecP_remaining]
                  intro hz
                  exact absurd hz hdone
        · rw [getP_set_ne _ _ _ _ hij]
          refine ⟨hiff, h0, hle, ?_⟩
          rcases hdisj with h | ⟨h0fr, h1, h2, h3, h4⟩
          · exact Or.inl h
          · exact Or.inr ⟨h0fr, h1, h2, by omega, h4⟩

theorem rr_final (q : Int) (hq : 1 ≤ q) (s : SchedulerSimulator)
    (out : SchedulerSimulator × Option SimResult)
    (hv : ValidInput s.original_processes) (hrun : rr_schedule q s = some out) :
    specsOf out.1.processes = specsOf s.original_processes ∧
    (∀ p ∈ out.1.processes,
      0 ≤ p.waiting_time ∧ 0 ≤ p.response_time ∧ p.response_time ≤ p.waiting_time ∧
      p.burst_time ≤ p.turnaround_time ∧
      p.turnaround_time = p.completion_time - p.arrival_time ∧
      p.waiting_time = p.turnaround_time - p.burst_time ∧
      p.response_time = p.first_run - p.arrival_time) ∧
    nonIdleLen out.1.timeline = totalBurst s.original_processes := by
  obtain ⟨st, hw, hout⟩ := rr_schedule_elim q s out hrun
  have hv0 : ValidInput (reset_processes s).processes :=
    validInput_of_specsOf (specsOf_reset s) hv
  obtain ⟨hinv, hcond⟩ := whileLoop_invariant
    (RRInv (reset_processes s).processes)
    (rrStep_inv _ hv0 q hq) _ _ _ (rrInv_init s hv) hw
  obtain ⟨hspecs, hnd, hcomplt, ht0, hsum, hqnd, hqf, hper⟩ := hinv
  rw [rrCond, Bool.or_eq_false_iff] at hcond
  have hnotlt : ¬ (st.completed.length < st.ps.length) :=
    of_decide_eq_false hcond.2
  have hall : ∀ i < st.ps.length, i ∈ st.completed :=
    mem_of_nodup_length_ge hnd hcomplt (by omega)
  have hrem0 : ∀ p ∈ st.ps, p.remaining_time = 0 := by
    intro p hp
    obtain ⟨i, hi, rfl⟩ := mem_getP st.ps p hp
    exact (hper i hi).1.mpr (hall i hi)
  have hz : sumRemaining st.ps = 0 := sumRemaining_eq_zero st.ps hrem0
  have hspecs2 : specsOf st.ps = specsOf s.original_processes := by
    rw [hspecs, specsOf_reset]
  have hgood : ∀ p ∈ st.ps, GoodP p := by
    intro p hp
    obtain ⟨i, hi, rfl⟩ := mem_getP st.ps p hp
    obtain ⟨hiff, h0, hle, hdisj⟩ := hper i hi
    have hr0 : (getP st.ps i).remaining_time = 0 := hiff.mpr (hall i hi)
    have hbpos : 0 < (getP st.ps i).burst_time := burst_pos_of_valid hspecs hv0 hi
    rcases hdisj with ⟨-, hrb, -, -⟩ | ⟨-, h1, h2, h3, h4⟩
    · exfalso
      omega
    · exact ⟨h1, h4 hr0, h2⟩
  refine ⟨?_, ?_, ?_⟩
  · rw [hout]
    show specsOf (calculate_metrics st.ps) = _
    rw [specsOf_calculate_metrics]
    exact hspecs2
  · rw [hout]
    exact calculate_metrics_good _ hgood
  · rw [hout]
    show nonIdleLen st.tl = _
    rw [← totalBurst_eq_of_specsOf hspecs2]
    have ht : totalBurst st.ps = totalBurst (reset_processes s).processes :=
      totalBurst_eq_of_specsOf hspecs
    omega

/-! ## Claims C2 (amended), C5, C8 and C10 -/

/-- C2 amended: for every valid non-empty input, the FIFO and SJF timelines
are ordered, gap-free, overlap-free coverings of `[0, makespan)` with
`start < end` for every entry and no two consecutive entries sharing a
label (contiguous same-label runs merged); STCF and RR do not have this
property (see the counterexample). -/
theorem fifo_sjf_timeline_covers_merged (s : SchedulerSimulator)
    (outF outS : SchedulerSimulator × Option SimResult)
    (hv : ValidInput s.original_processes) (hne : s.original_processes ≠ [])
    (h1 : fifo_schedule s = some outF) (h2 : sjf_schedule s = some outS) :
    timelineChainB 0 outF.1.timeline = true ∧ mergedB outF.1.timeline = true ∧
    outF.1.timeline ≠ [] ∧
    timelineChainB 0 outS.1.timeline = true ∧ mergedB outS.1.timeline = true ∧
    outS.1.timeline ≠ [] := by
  obtain ⟨-, -, hcF, hmF, hneF, -, -⟩ := fifo_final s outF hv h1
  obtain ⟨-, -, -, hcS, hmS, hneS⟩ := sjf_final s outS hv h2
  exact ⟨hcF, hmF, hneF hne, hcS, hmS, hneS hne⟩

/-- Witness for C2 (amended) at the worked example: the FIFO and SJF
timelines both chain from 0 and are merged. -/
theorem fifo_sjf_timeline_covers_merged_witness :
    timelineChainB 0
      (Option.getD (fifo_schedule exampleSim) (exampleSim, none)).1.timeline = true ∧
    mergedB
      (Option.getD (sjf_schedule exampleSim) (exampleSim, none)).1.timeline = true :=
  ⟨(fifo_sjf_timeline_covers_merged exampleSim
      (Option.getD (fifo_schedule exampleSim) (exampleSim, none))
      (Option.getD (sjf_schedule exampleSim) (exampleSim, none))
      (by decide) (by decide) (by rfl) (by rfl)).1,
   (fifo_sjf_timeline_covers_merged exampleSim
      (Option.getD (fifo_schedule exampleSim) (exampleSim, none))
      (Option.getD (sjf_schedule exampleSim) (exampleSim, none))
      (by decide) (by decide) (by rfl) (by rfl)).2.2.2.2.1⟩

/-- C5: for every valid input and every policy (FIFO, SJF, STCF, RR with a
positive quantum), the sum of the lengths of the non-IDLE timeline entries
of a completed run equals the sum of all burst times. -/
theorem nonidle_sum_eq_total_burst (pol : Policy) (s : SchedulerSimulator)
    (out : SchedulerSimulator × Option SimResult)
    (hv : ValidInput s.original_processes) (hp : policyValid pol)
    (hrun : runPolicy pol s = some out) :
    nonIdleLen out.1.timeline = totalBurst s.original_processes := by
  cases pol with
  | FIFO => exact (fifo_final s out hv hrun).2.1
  | SJF => exact (sjf_final s out hv hrun).2.2.1
  | STCF => exact (stcf_final s out hv hrun).2.2
  | RR q => exact (rr_final q hp s out hv hrun).2.2

/-- Witness for C5 at the worked example, Round-Robin with quantum 3. -/
theorem nonidle_sum_eq_total_burst_witness :
    nonIdleLen (Option.getD (runPolicy (Policy.RR 3) exampleSim)
      (exampleSim, none)).1.timeline = totalBurst exampleSim.original_processes :=
  nonidle_sum_eq_total_burst (Policy.RR 3) exampleSim
    (Option.getD (runPolicy (Policy.RR 3) exampleSim) (exampleSim, none))
    (by decide) (by decide) (by rfl)

/-- C8: for every valid input, every policy (FIFO, SJF, STCF, RR with a
positive quantum) and every process of a completed run, the waiting time
and response time are non-negative, the response time does not exceed the
waiting time, the turnaround time is at least the burst time, and the
three metric equations `turnaround = completion - arrival`,
`waiting = turnaround - burst`, `response = first_run - arrival` hold. -/
theorem metrics_invariants (pol : Policy) (s : SchedulerSimulator)
    (out : SchedulerSimulator × Option SimResult)
    (hv : ValidInput s.original_processes) (hp : policyValid pol)
    (hrun : runPolicy pol s = some out) :
    ∀ p ∈ out.1.processes,
      0 ≤ p.waiting_time ∧ 0 ≤ p.response_time ∧ p.response_time ≤ p.waiting_time ∧
      p.burst_time ≤ p.turnaround_time ∧
      p.turnaround_time = p.completion_time - p.arrival_time ∧
      p.waiting_time = p.turnaround_time - p.burst_time ∧
      p.response_time = p.first_run - p.arrival_time := by
  cases pol with
  | FIFO => exact (fifo_final s out hv hrun).1
  | SJF => exact (sjf_final s out hv hrun).2.1
  | STCF => exact (stcf_final s out hv hrun).2.1
  | RR q => exact (rr_final q hp s out hv hrun).2.1

/-- Witness for C8 at the worked example under STCF: the metric inequalities
hold for the first resulting process state. -/
theorem metrics_invariants_witness :
    0 ≤ (getP (Option.getD (runPolicy Policy.STCF exampleSim)
      (exampleSim, none)).1.processes 0).waiting_time ∧
    (getP (Option.getD (runPolicy Policy.STCF exampleSim)
      (exampleSim, none)).1.processes 0).response_time ≤
    (getP (Option.getD (runPolicy Policy.STCF exampleSim)
      (exampleSim, none)).1.processes 0).waiting_time :=
  have h := metrics_invariants Policy.STCF exampleSim
    (Option.getD (runPolicy Policy.STCF exampleSim) (exampleSim, none))
    (by decide) trivial (by rfl)
  ⟨(h _ (by decide)).1, (h _ (by decide)).2.2.1⟩

/-- C10: after a FIFO run, the per-process result states are sorted by
arrival time (stably: for each arrival value, the processes with that
arrival keep their original relative order and spec fields), because the
working list is sorted in place; after an SJF, STCF or RR run the result
states keep the original input order (their spec fields, in order, equal
the input's). -/
theorem result_order (pol : Policy) (s : SchedulerSimulator)
    (out : SchedulerSimulator × Option SimResult)
    (hv : ValidInput s.original_processes) (hp : policyValid pol)
    (hrun : runPolicy pol s = some out) :
    (pol = Policy.FIFO →
      out.1.processes.Pairwise arrivalLE ∧
      (∀ a : Int,
        (out.1.processes.filter (fun p => decide (p.arrival_time = a))).map
          Process.spec =
        (s.original_processes.filter (fun p => decide (p.arrival_time = a))).map
          Process.spec)) ∧
    (pol ≠ Policy.FIFO →
      specsOf out.1.processes = specsOf s.original_processes) := by
  cases pol with
  | FIFO =>
    refine ⟨fun _ => ?_, fun h => absurd rfl h⟩
    obtain ⟨-, -, -, -, -, hpw, hfil⟩ := fifo_final s out hv hrun
    exact ⟨hpw, hfil⟩
  | SJF => exact ⟨fun h => Policy.noConfusion h, fun _ => (sjf_final s out hv hrun).1⟩
  | STCF => exact ⟨fun h => Policy.noConfusion h, fun _ => (stcf_final s out hv hrun).1⟩
  | RR q => exact ⟨fun h => Policy.noConfusion h, fun _ => (rr_final q hp s out hv hrun).1⟩

/-- Witness for C10 at the worked example: the FIFO result is
arrival-ordered and the SJF result keeps the original spec order. -/
theorem result_order_witness :
    (Option.getD (runPolicy Policy.FIFO exampleSim)
      (exampleSim, none)).1.processes.Pairwise arrivalLE ∧
    specsOf (Option.getD (runPolicy Policy.SJF exampleSim)
      (exampleSim, none)).1.processes = specsOf exampleSim.original_processes :=
  ⟨((result_order Policy.FIFO exampleSim
      (Option.getD (runPolicy Policy.FIFO exampleSim) (exampleSim, none))
      (by decide) trivial (by rfl)).1 rfl).1,
   (result_order Policy.SJF exampleSim
      (Option.getD (runPolicy Policy.SJF exampleSim) (exampleSim, none))
      (by decide) trivial (by rfl)).2 (by decide)⟩
